import Mathlib

/-!
Verification development for the protein-sequence collection core of
aide_predict (src/aide_predict/utils/data_structures.py).

The embedding below translates the Python source into Lean:
sequences of characters become lists of Lean characters, the FASTA file
becomes a list of lines (each line implicitly terminated by a newline
byte), and fallible Python code (raising ValueError / KeyError /
IndexError) becomes Except-valued functions.  Identifiers are modelled
as lists of characters so that byte offsets in the file model can be
computed exactly.

The alphabets come from aide_predict.utils.constants and the FASTA
reader and writer come from aide_predict.io.bio_files; neither module is
under src/, so those definitions are modelled from the spec and say so
in their doc comments.  Everything else is translated directly from
data_structures.py.
-/

namespace AidePredict

/-- Modelled from the spec: the canonical amino-acid alphabet
(`AA_SINGLE` from the constants module, which is not under src/).  The
spec's glossary defines it as the twenty standard protein-building-block
symbols. -/
def AA_SINGLE : List Char :=
  ['A', 'C', 'D', 'E', 'F', 'G', 'H', 'I', 'K', 'L',
   'M', 'N', 'P', 'Q', 'R', 'S', 'T', 'V', 'W', 'Y']

/-- Modelled from the spec: the gap alphabet (`GAP_CHARACTERS` from the
constants module, which is not under src/).  The spec's scenarios use
the hyphen as the gap symbol, and the collection code in
data_structures.py treats the hyphen as the gap character. -/
def GAP_CHARACTERS : List Char := ['-']

/-- Modelled from the spec: the non-canonical amino-acid alphabet
(`NON_CONONICAL_AA_SINGLE` from the constants module, which is not under
src/).  The spec describes these as ambiguity or modified-residue codes
and names X as a member. -/
def NON_CONONICAL_AA_SINGLE : List Char := ['B', 'J', 'O', 'U', 'X', 'Z']

/-- `ProteinCharacter.__new__`: a character is accepted when its
uppercase form is in the union of the three alphabets. -/
def validChar (c : Char) : Bool :=
  (AA_SINGLE ++ GAP_CHARACTERS ++ NON_CONONICAL_AA_SINGLE).contains c.toUpper

/-- `ProteinCharacter.is_gap`: membership in the gap alphabet (the
source does not uppercase here). -/
def isGap (c : Char) : Bool := GAP_CHARACTERS.contains c

/-- `ProteinCharacter.is_non_canonical`. -/
def isNonCanonical (c : Char) : Bool := NON_CONONICAL_AA_SINGLE.contains c

/-- Error kinds raised by the source (ValueError with a range message,
ValueError at character validation, ValueError for alignment-state
violations, ValueError for mapping problems, KeyError, IndexError). -/
inductive DSError where
  | invalidChar
  | rangeError
  | stateError
  | valueError
  | keyError
  | indexError
deriving DecidableEq, Repr

/-- `ProteinSequence`: the validated character content plus the optional
identifier and optional structure reference that the Python object
carries in `_id` and `_structure`. -/
structure ProteinSequence where
  chars : List Char
  id : Option (List Char)
  struct : Option (List Char)
deriving DecidableEq, Repr

/-- `ProteinSequence.__new__`: every character of the raw string is
validated (the source raises ValueError at the first invalid one). -/
def mkProteinSequence (seq : List Char) (id : Option (List Char))
    (struct : Option (List Char)) : Except DSError ProteinSequence :=
  if seq.all validChar then .ok ⟨seq, id, struct⟩ else .error .invalidChar

/-- `ProteinSequence.has_gaps`. -/
def ProteinSequence.hasGaps (s : ProteinSequence) : Bool := s.chars.any isGap

/-- `ProteinSequence.num_gaps`. -/
def ProteinSequence.numGaps (s : ProteinSequence) : Nat := s.chars.countP isGap

/-- `ProteinSequence.base_length`: length minus the number of gaps. -/
def ProteinSequence.baseLength (s : ProteinSequence) : Nat :=
  s.chars.length - s.numGaps

/-- `ProteinSequence.with_no_gaps`: keeps only the characters outside
the gap alphabet; identifier and structure are passed along.  The source
rebuilds through `ProteinSequence(...)`, whose validation cannot fail
here because every kept character comes from the already validated
receiver (claim C8 states this closure explicitly). -/
def ProteinSequence.withNoGaps (s : ProteinSequence) : ProteinSequence :=
  ⟨s.chars.filter (fun c => !(isGap c)), s.id, s.struct⟩

/-- `ProteinSequence.mutate`: ValueError when the position is outside
`[0, len)`, otherwise the spliced string is re-validated by the
`ProteinSequence(...)` constructor; the identifier is deliberately not
passed on, the structure is. -/
def ProteinSequence.mutate (s : ProteinSequence) (position : Int)
    (newCharacter : Char) : Except DSError ProteinSequence :=
  if position < 0 ∨ (s.chars.length : Int) ≤ position then .error .rangeError
  else
    mkProteinSequence
      (s.chars.take position.toNat ++ newCharacter :: s.chars.drop (position.toNat + 1))
      none s.struct

/-- `ProteinSequence.slice_as_protein_sequence`: a new sequence over
`[start, stop)` keeping identifier and structure (the constructor's
validation cannot fail on a slice of validated characters). -/
def ProteinSequence.sliceAsProteinSequence (s : ProteinSequence)
    (start stop : Nat) : ProteinSequence :=
  ⟨(s.chars.drop start).take (stop - start), s.id, s.struct⟩

/-- The per-member loop of `ProteinSequences.get_alignment_mapping`:
walk the aligned characters left to right keeping a running aligned
position; record the position of every non-gap character. -/
def seqMappingGo : List Char → Nat → List Nat
  | [], _ => []
  | c :: rest, alignedPos =>
    if isGap c then seqMappingGo rest (alignedPos + 1)
    else alignedPos :: seqMappingGo rest (alignedPos + 1)

/-- The alignment mapping of one member, starting the walk at aligned
position zero as the source's `enumerate` does. -/
def ProteinSequence.seqMapping (s : ProteinSequence) : List Nat :=
  seqMappingGo s.chars 0

/-- `ProteinSequences.aligned`: the set of member lengths (modelled by
`dedup`) has exactly one element. -/
def ProteinSequences.aligned (C : List ProteinSequence) : Bool :=
  ((C.map (fun s => s.chars.length)).dedup.length == 1)

/-- `ProteinSequences.fixed_length`: the set of member base lengths has
exactly one element. -/
def ProteinSequences.fixedLength (C : List ProteinSequence) : Bool :=
  ((C.map (fun s => s.baseLength)).dedup.length == 1)

/-- `ProteinSequences.width`: the length of the first member when
aligned, None otherwise (on an empty collection `aligned` is false, so
the source's `self[0]` is never reached). -/
def ProteinSequences.width (C : List ProteinSequence) : Option Nat :=
  if ProteinSequences.aligned C then C.head?.map (fun s => s.chars.length)
  else none

/-- `ProteinSequences.has_gaps`. -/
def ProteinSequences.hasGaps (C : List ProteinSequence) : Bool :=
  C.any (fun s => s.hasGaps)

/-- `ProteinSequences.mutated_positions`: when the collection is not
aligned the source emits a non-fatal warning and returns None (modelled
as `none`); otherwise it walks the columns of the common width and
collects, in increasing order, the columns holding more than one
distinct character.  Column access models `get_protein_character i`,
whose out-of-range branch is unreachable under alignment, with `getD`. -/
def ProteinSequences.mutatedPositions (C : List ProteinSequence) :
    Option (List Nat) :=
  if !(ProteinSequences.aligned C) then none
  else if C.isEmpty then some []
  else
    let w := (C.head?.map (fun s => s.chars.length)).getD 0
    some ((List.range w).filter
      (fun i => 1 < (C.map (fun s => s.chars.getD i ' ')).dedup.length))

/-- `ProteinSequences.with_no_gaps`. -/
def ProteinSequences.withNoGaps (C : List ProteinSequence) :
    List ProteinSequence :=
  C.map (fun s => s.withNoGaps)

/-- `ProteinSequences.get_alignment_mapping`: ValueError when not
aligned, otherwise one mapping list per member, keyed by member index
(the Python dict keyed `0..len-1` in order is modelled by the list). -/
def ProteinSequences.getAlignmentMapping (C : List ProteinSequence) :
    Except DSError (List (List Nat)) :=
  if !(ProteinSequences.aligned C) then .error .stateError
  else .ok (C.map (fun s => s.seqMapping))

/-- The scatter loop of `ProteinSequences.apply_alignment_mapping`:
`for original_pos, aligned_pos in enumerate(seq_mapping):
aligned_seq[aligned_pos] = seq[original_pos]`. -/
def scatterGo (chars : List Char) : Nat → List Nat → List Char → List Char
  | _, [], buf => buf
  | originalPos, alignedPos :: m, buf =>
    scatterGo chars (originalPos + 1) m (buf.set alignedPos (chars.getD originalPos ' '))

/-- The per-member body of `apply_alignment_mapping`: Python's
`max(filter(None, seq_mapping))` drops the falsy value 0 before taking
the maximum and raises ValueError on an empty argument; the in-loop
`original_pos >= len(seq)` check fires exactly when the mapping is
longer than the member; the scattered buffer is re-validated by the
`ProteinSequence(...)` constructor with identifier and structure kept. -/
def applyOne (seq : ProteinSequence) (m : List Nat) :
    Except DSError ProteinSequence :=
  match (m.filter (fun x => x ≠ 0)).max? with
  | none => .error .valueError
  | some mx =>
    if seq.chars.length < m.length then .error .valueError
    else
      mkProteinSequence (scatterGo seq.chars 0 m (List.replicate (mx + 1) '-'))
        seq.id seq.struct

/-- The member loop of `apply_alignment_mapping`: ValueError when the
member index is missing from the mapping, then the per-member body. -/
def applyGo (mapping : List (List Nat)) : Nat → List ProteinSequence →
    Except DSError (List ProteinSequence)
  | _, [] => .ok []
  | i, s :: rest =>
    match mapping.get? i with
    | none => .error .valueError
    | some m =>
      match applyOne s m with
      | .error e => .error e
      | .ok t =>
        match applyGo mapping (i + 1) rest with
        | .error e => .error e
        | .ok ts => .ok (t :: ts)

/-- `ProteinSequences.apply_alignment_mapping`: ValueError when the
collection already has gaps, otherwise the member loop. -/
def ProteinSequences.applyAlignmentMapping (C : List ProteinSequence)
    (mapping : List (List Nat)) : Except DSError (List ProteinSequence) :=
  if ProteinSequences.hasGaps C then .error .stateError
  else applyGo mapping 0 C

/-- Python's `range(start, stop, step)` for a positive step, by the
source's iteration scheme `i, i+step, ...` while `i < stop`. -/
def pyRangeUp (stop step i : Nat) : List Nat :=
  if _h : 0 < step ∧ i < stop then i :: pyRangeUp stop step (i + step) else []
termination_by stop - i
decreasing_by omega

/-- `ProteinSequences.iter_batches`: Python's `range(0, len, batch_size)`
raises ValueError for a zero step (modelled as `none`); each index
yields the slice `self[i:i+batch_size]`. -/
def ProteinSequences.iterBatches (C : List ProteinSequence)
    (batchSize : Nat) : Option (List (List ProteinSequence)) :=
  if batchSize = 0 then none
  else some ((pyRangeUp C.length batchSize 0).map
    (fun i => (C.drop i).take batchSize))

/-- Decimal digits of a natural number, with structural fuel so that
concrete values reduce definitionally. -/
def natToCharsGo : Nat → Nat → List Char
  | 0, _ => []
  | fuel + 1, n =>
    if n < 10 then [Char.ofNat (48 + n)]
    else natToCharsGo fuel (n / 10) ++ [Char.ofNat (48 + n % 10)]

/-- Decimal rendering of a natural number. -/
def natToChars (n : Nat) : List Char := natToCharsGo (n + 1) n

/-- Modelled from the spec: the content hash used as the default export
identifier (`hash(seq)` rendered as header text by the writer in
aide_predict.io.bio_files, which is not under src/).  Any deterministic
function of the content serves the claims; a simple polynomial fold is
used. -/
def hashSeq (s : ProteinSequence) : List Char :=
  natToChars (s.chars.foldl (fun a c => a * 31 + c.toNat) 7)

/-- `seq.id or hash(seq)` from `to_dict` / `to_fasta`: Python's `or`
replaces both a missing and an empty identifier by the hash. -/
def idOrHash (s : ProteinSequence) : List Char :=
  match s.id with
  | some i => if i.isEmpty then hashSeq s else i
  | none => hashSeq s

/-- Modelled from the spec: `write_fasta` (aide_predict.io.bio_files is
not under src/).  Each record becomes a header line (the marker
character followed by the identifier) and one content line. -/
def writeFasta (records : List (List Char × List Char)) : List (List Char) :=
  records.flatMap (fun r => [('>' :: r.1), r.2])

/-- `ProteinSequences.to_fasta`: writes `(seq.id or hash(seq), str(seq))`
for every member, in order. -/
def ProteinSequences.toFasta (C : List ProteinSequence) : List (List Char) :=
  writeFasta (C.map (fun s => (idOrHash s, s.chars)))

/-- All whitespace removed, as in `''.join(text.split())` and in the
spec's "content lines are concatenated with embedded whitespace
stripped". -/
def stripAllWS (cs : List Char) : List Char :=
  cs.filter (fun c => !c.isWhitespace)

/-- The first whitespace-delimited token, as in `text.strip().split()[0]`
(the source raises IndexError when there is no token; the theorems below
are only ever invoked on headers that carry one). -/
def firstToken (cs : List Char) : List Char :=
  (cs.dropWhile Char.isWhitespace).takeWhile (fun c => !c.isWhitespace)

/-- Python's `str.strip()`: leading and trailing whitespace removed. -/
def pyStripChars (cs : List Char) : List Char :=
  ((cs.dropWhile Char.isWhitespace).reverse.dropWhile Char.isWhitespace).reverse

/-- Modelled from the spec: the streaming state of `read_fasta`
(aide_predict.io.bio_files is not under src/).  A header line (marker
character first) opens a record whose identifier is the first
whitespace-delimited token after the marker; subsequent non-header lines
are concatenated onto the open record with embedded whitespace stripped;
a new header or the end of file closes the open record. -/
def readFastaGo (cur : Option (List Char × List Char)) :
    List (List Char) → List (List Char × List Char)
  | [] =>
    match cur with
    | none => []
    | some r => [r]
  | l :: ls =>
    if l.head? = some '>' then
      match cur with
      | none => readFastaGo (some (firstToken (l.drop 1), [])) ls
      | some r => r :: readFastaGo (some (firstToken (l.drop 1), [])) ls
    else
      match cur with
      | none => readFastaGo none ls
      | some r => readFastaGo (some (r.1, r.2 ++ stripAllWS l)) ls

/-- Modelled from the spec: `read_fasta` over the lines of a file. -/
def readFasta (lines : List (List Char)) : List (List Char × List Char) :=
  readFastaGo none lines

/-- The record loop of `ProteinSequences.from_fasta`: each parsed record
is rebuilt as `ProteinSequence(seq, id=id)` (validation can fail). -/
def seqsOfRecords : List (List Char × List Char) →
    Except DSError (List ProteinSequence)
  | [] => .ok []
  | r :: rest =>
    match mkProteinSequence r.2 (some r.1) none with
    | .error e => .error e
    | .ok s =>
      match seqsOfRecords rest with
      | .error e => .error e
      | .ok ss => .ok (s :: ss)

/-- `ProteinSequences.from_fasta`. -/
def ProteinSequences.fromFasta (lines : List (List Char)) :
    Except DSError (List ProteinSequence) :=
  seqsOfRecords (readFasta lines)

/-- One value of `ProteinSequencesOnFile._index`: byte offset of the
first content byte, content length in stripped characters, gap flag, and
base length. -/
structure IndexEntry where
  start : Nat
  length : Nat
  has_gaps : Bool
  base_length : Nat
deriving DecidableEq, Repr

/-- Python dict assignment `d[k] = v`: an existing key keeps its
insertion position and gets the new value, a new key is appended. -/
def dictInsert (d : List (List Char × IndexEntry)) (k : List Char)
    (v : IndexEntry) : List (List Char × IndexEntry) :=
  if d.any (fun p => p.1 == k) then
    d.map (fun p => if p.1 == k then (k, v) else p)
  else d ++ [(k, v)]

/-- The loop state of `ProteinSequencesOnFile._create_index`. -/
structure IndexState where
  index : List (List Char × IndexEntry)
  currentId : Option (List Char)
  seqStart : Nat
  seqLength : Nat
  hasGaps : Bool
  baseLength : Nat
  filePos : Nat

/-- Flushing the pending record into the index, as done at each header
line and once more at end of file. -/
def flushIndex (st : IndexState) : List (List Char × IndexEntry) :=
  match st.currentId with
  | some cid =>
    dictInsert st.index cid ⟨st.seqStart, st.seqLength, st.hasGaps, st.baseLength⟩
  | none => st.index

/-- One iteration of the `_create_index` line loop.  A line is modelled
without its newline byte, so Python's `len(line)` is `line.length + 1`.
A header line flushes the pending record and opens a new one whose
content starts right after the header's newline; any other line is
stripped and accumulated into length, gap flag (a literal hyphen test in
the source) and base length (`len(seq.replace('-',''))`). -/
def createIndexStep (st : IndexState) (line : List Char) : IndexState :=
  if line.head? = some '>' then
    { index := flushIndex st
      currentId := some (firstToken (line.drop 1))
      seqStart := st.filePos + (line.length + 1)
      seqLength := 0
      hasGaps := false
      baseLength := 0
      filePos := st.filePos + (line.length + 1) }
  else
    { index := st.index
      currentId := st.currentId
      seqStart := st.seqStart
      seqLength := st.seqLength + (pyStripChars line).length
      hasGaps := st.hasGaps || (pyStripChars line).contains '-'
      baseLength := st.baseLength + ((pyStripChars line).filter (fun c => c ≠ '-')).length
      filePos := st.filePos + (line.length + 1) }

/-- `ProteinSequencesOnFile._create_index`: one forward scan over the
lines, then a final flush of the last record. -/
def createIndex (lines : List (List Char)) : List (List Char × IndexEntry) :=
  flushIndex (lines.foldl createIndexStep ⟨[], none, 0, 0, false, 0, 0⟩)

/-- The byte content of the file: every line followed by its newline. -/
def flattenFile (lines : List (List Char)) : List Char :=
  (lines.map (fun l => l ++ ['\n'])).flatten

namespace OnFile

/-- `ProteinSequencesOnFile.__len__`: the number of index entries. -/
def size (lines : List (List Char)) : Nat := (createIndex lines).length

/-- `_compute_global_properties` / `aligned`: the set of indexed content
lengths has exactly one element. -/
def aligned (lines : List (List Char)) : Bool :=
  (((createIndex lines).map (fun p => p.2.length)).dedup.length == 1)

/-- `_compute_global_properties` / `fixed_length`. -/
def fixedLength (lines : List (List Char)) : Bool :=
  (((createIndex lines).map (fun p => p.2.base_length)).dedup.length == 1)

/-- `_compute_global_properties` / `width`: the single indexed length
when aligned (`next(iter(lengths))` on a one-element set), else None. -/
def width (lines : List (List Char)) : Option Nat :=
  if aligned lines then ((createIndex lines).map (fun p => p.2.length)).head?
  else none

/-- `_compute_global_properties` / `has_gaps`. -/
def hasGaps (lines : List (List Char)) : Bool :=
  (createIndex lines).any (fun p => p.2.has_gaps)

/-- `ProteinSequencesOnFile.__getitem__` with a string key: KeyError
when the identifier is not indexed, otherwise seek to the recorded
offset, read the recorded number of bytes, drop all whitespace
(`''.join(text.split())`) and rebuild through `ProteinSequence(...)`. -/
def getById (lines : List (List Char)) (id : List Char) :
    Except DSError ProteinSequence :=
  match (createIndex lines).find? (fun p => p.1 == id) with
  | none => .error .keyError
  | some p =>
    mkProteinSequence
      (stripAllWS (((flattenFile lines).drop p.2.start).take p.2.length))
      (some id) none

/-- `ProteinSequencesOnFile.__getitem__` with an integer key: IndexError
outside `[0, len)`, otherwise the key at that position of the index's
insertion order, then the string-keyed access. -/
def getByPos (lines : List (List Char)) (index : Int) :
    Except DSError ProteinSequence :=
  if index < 0 ∨ ((createIndex lines).length : Int) ≤ index then
    .error .indexError
  else
    match ((createIndex lines).map (fun p => p.1)).get? index.toNat with
    | none => .error .indexError
    | some id => getById lines id

/-- `ProteinSequencesOnFile.__iter__`: a fresh `read_fasta` pass over
the whole file, one `ProteinSequence(seq, id=id)` per record. -/
def iterSeqs (lines : List (List Char)) :
    Except DSError (List ProteinSequence) :=
  seqsOfRecords (readFasta lines)

/-- `ProteinSequencesOnFile.mutated_positions`: None when not aligned
(no warning in this variant), otherwise per-column character sets
accumulated over a full iteration pass.  Defined over the parsed records
of that pass; columns are the precomputed width. -/
def mutatedPositions (lines : List (List Char)) : Option (List Nat) :=
  if !(aligned lines) then none
  else
    some ((List.range ((width lines).getD 0)).filter
      (fun i =>
        1 < ((readFasta lines).map (fun r => r.2.getD i ' ')).dedup.length))

end OnFile

/-! Generic helper lemmas. -/

theorem dedup_length_le_one_iff {α : Type} [DecidableEq α] (l : List α) :
    l.dedup.length ≤ 1 ↔ ∀ a ∈ l, ∀ b ∈ l, a = b := by
  constructor
  · intro h a ha b hb
    have ha' : a ∈ l.dedup := List.mem_dedup.mpr ha
    have hb' : b ∈ l.dedup := List.mem_dedup.mpr hb
    rcases hld : l.dedup with _ | ⟨x, _ | ⟨y, t⟩⟩
    · rw [hld] at ha'; simp at ha'
    · rw [hld] at ha' hb'
      simp at ha' hb'
      rw [ha', hb']
    · rw [hld] at h; simp at h
  · intro h
    rcases hld : l.dedup with _ | ⟨x, _ | ⟨y, t⟩⟩
    · simp
    · simp
    · exfalso
      have hx : x ∈ l := List.mem_dedup.mp (by rw [hld]; simp)
      have hy : y ∈ l := List.mem_dedup.mp (by rw [hld]; simp)
      have hnd : l.dedup.Nodup := List.nodup_dedup l
      rw [hld] at hnd
      have hne : x ∉ y :: t := (List.nodup_cons.mp hnd).1
      exact hne (by rw [h x hx y hy]; simp)

theorem dedup_length_eq_one_iff {α : Type} [DecidableEq α] (l : List α) :
    l.dedup.length = 1 ↔ l ≠ [] ∧ ∀ a ∈ l, ∀ b ∈ l, a = b := by
  constructor
  · intro h
    refine ⟨?_, (dedup_length_le_one_iff l).mp (by omega)⟩
    intro hnil
    rw [hnil] at h
    simp at h
  · intro ⟨hne, hall⟩
    have hle := (dedup_length_le_one_iff l).mpr hall
    have hpos : 0 < l.dedup.length := by
      rcases l with _ | ⟨a, t⟩
      · exact absurd rfl hne
      · have : a ∈ (a :: t).dedup := List.mem_dedup.mpr (by simp)
        exact List.length_pos.mpr (List.ne_nil_of_mem this)
    omega

theorem one_lt_dedup_length_iff {α : Type} [DecidableEq α] (l : List α) :
    1 < l.dedup.length ↔ ∃ a ∈ l, ∃ b ∈ l, a ≠ b := by
  rw [← not_iff_not]
  push_neg
  exact dedup_length_le_one_iff l

theorem map_dedup_length_eq_one_iff {α β : Type} [DecidableEq β] (f : α → β)
    (C : List α) :
    ((C.map f).dedup.length = 1) ↔ C ≠ [] ∧ ∀ a ∈ C, ∀ b ∈ C, f a = f b := by
  rw [dedup_length_eq_one_iff]
  simp

theorem aligned_iff (C : List ProteinSequence) :
    ProteinSequences.aligned C = true ↔
      C ≠ [] ∧ ∀ s ∈ C, ∀ t ∈ C, s.chars.length = t.chars.length := by
  unfold ProteinSequences.aligned
  rw [beq_iff_eq]
  exact map_dedup_length_eq_one_iff _ C

theorem aligned_length_eq {C : List ProteinSequence} {w : Nat}
    (ha : ProteinSequences.aligned C = true)
    (hw : ProteinSequences.width C = some w) :
    ∀ s ∈ C, s.chars.length = w := by
  obtain ⟨hne, hall⟩ := (aligned_iff C).mp ha
  unfold ProteinSequences.width at hw
  rw [if_pos ha] at hw
  rcases C with _ | ⟨h0, t⟩
  · exact absurd rfl hne
  · simp at hw
    intro s hs
    rw [hall s hs h0 (by simp), hw]

theorem mk_ok_valid {cs : List Char} {id st : Option (List Char)}
    {t : ProteinSequence} (h : mkProteinSequence cs id st = .ok t) :
    t.chars.all validChar = true := by
  unfold mkProteinSequence at h
  split at h
  · rename_i hv
    injection h with h
    rw [← h]
    exact hv
  · cases h

theorem mk_ok_elim {cs : List Char} {id st : Option (List Char)}
    {t : ProteinSequence} (h : mkProteinSequence cs id st = .ok t) :
    cs.all validChar = true ∧ t = ⟨cs, id, st⟩ := by
  unfold mkProteinSequence at h
  split at h
  · rename_i hv
    injection h with h
    exact ⟨hv, h.symm⟩
  · cases h

theorem mk_ok_of_valid {cs : List Char} {id st : Option (List Char)}
    (hv : cs.all validChar = true) :
    mkProteinSequence cs id st = .ok ⟨cs, id, st⟩ := by
  unfold mkProteinSequence
  rw [if_pos hv]

theorem applyOne_ok_valid {s : ProteinSequence} {m : List Nat}
    {t : ProteinSequence} (h : applyOne s m = .ok t) :
    t.chars.all validChar = true := by
  unfold applyOne at h
  split at h
  · cases h
  · split at h
    · cases h
    · exact mk_ok_valid h

theorem applyGo_ok_valid {mapping : List (List Nat)} :
    ∀ {C : List ProteinSequence} {i : Nat} {D : List ProteinSequence},
      applyGo mapping i C = .ok D → ∀ t ∈ D, t.chars.all validChar = true := by
  intro C
  induction C with
  | nil =>
    intro i D h t ht
    unfold applyGo at h
    injection h with h
    rw [← h] at ht
    cases ht
  | cons s rest ih =>
    intro i D h t ht
    unfold applyGo at h
    cases hm : mapping.get? i with
    | none => simp only [hm] at h; cases h
    | some m =>
      simp only [hm] at h
      cases hone : applyOne s m with
      | error e => simp only [hone] at h; cases h
      | ok t0 =>
        simp only [hone] at h
        cases hrec : applyGo mapping (i + 1) rest with
        | error e => simp only [hrec] at h; cases h
        | ok ts =>
          simp only [hrec] at h
          injection h with h
          rw [← h] at ht
          rcases List.mem_cons.mp ht with h1 | h2
          · rw [h1]
            exact applyOne_ok_valid hone
          · exact ih hrec t h2

/-- Claim C9: an in-memory collection with zero members reports
`aligned = False` and `fixed_length = False`, `width` returns None
without raising, and `mutated_positions` takes the not-aligned warning
path and yields None, so the internal empty-collection branch that would
return an empty list is never reached. -/
theorem C9_empty_collection :
    ProteinSequences.aligned [] = false ∧
    ProteinSequences.fixedLength [] = false ∧
    ProteinSequences.width [] = none ∧
    ProteinSequences.mutatedPositions [] = none ∧
    ProteinSequences.mutatedPositions [] ≠ some [] := by
  refine ⟨rfl, rfl, rfl, rfl, ?_⟩
  intro h
  cases h

/-- Claim C4: for a sequence of valid characters, a valid replacement
character and a position inside `[0, len)`, `mutate` returns a new
sequence with the new character at that position and the old characters
everywhere else, with no identifier and with the receiver's structure;
for a position outside `[0, len)` it fails with the range error and no
sequence is produced. -/
theorem C4_mutate_spec :
    ∀ (s : ProteinSequence) (p : Int) (c : Char),
      (s.chars.all validChar = true → validChar c = true → 0 ≤ p →
        p < (s.chars.length : Int) →
        ∃ t, s.mutate p c = .ok t ∧
          t.chars.length = s.chars.length ∧
          t.chars.get? p.toNat = some c ∧
          (∀ q : Nat, q ≠ p.toNat → t.chars.get? q = s.chars.get? q) ∧
          t.id = none ∧ t.struct = s.struct) ∧
      ((p < 0 ∨ (s.chars.length : Int) ≤ p) →
        s.mutate p c = .error .rangeError) := by
  intro s p c
  constructor
  · intro hall hc hp0 hplt
    have hcond : ¬(p < 0 ∨ (s.chars.length : Int) ≤ p) := by omega
    have hklen : p.toNat < s.chars.length := by omega
    have htklen : (s.chars.take p.toNat).length = p.toNat := by
      rw [List.length_take]
      omega
    unfold ProteinSequence.mutate
    rw [if_neg hcond]
    have hvalid :
        (s.chars.take p.toNat ++ c :: s.chars.drop (p.toNat + 1)).all validChar
          = true := by
      rw [List.all_eq_true] at hall ⊢
      intro x hx
      rcases List.mem_append.mp hx with h1 | h2
      · exact hall x (List.take_subset _ _ h1)
      · rcases List.mem_cons.mp h2 with h3 | h4
        · rw [h3]; exact hc
        · exact hall x (List.drop_subset _ _ h4)
    rw [mk_ok_of_valid hvalid]
    refine ⟨_, rfl, ?_, ?_, ?_, rfl, rfl⟩
    · rw [List.length_append, htklen]
      simp
      omega
    · rw [List.get?_append_right (by omega)]
      rw [htklen]
      simp
    · intro q hq
      rcases Nat.lt_or_ge q p.toNat with hlt | hge
      · rw [List.get?_append (by omega)]
        exact List.get?_take hlt
      · have hgt : p.toNat < q := by omega
        rw [List.get?_append_right (by omega), htklen]
        have hq1 : q - p.toNat = (q - p.toNat - 1) + 1 := by omega
        rw [hq1]
        simp only [List.get?_cons_succ]
        rw [List.get?_drop]
        congr 1
        omega
  · intro h
    unfold ProteinSequence.mutate
    rw [if_pos h]

/-- Witness for C4 at the concrete sequence AC with identifier i and a
mutation to D at position 1, plus the out-of-range failure at 5. -/
theorem C4_mutate_spec_witness :
    (∃ t, ProteinSequence.mutate ⟨['A', 'C'], some ['i'], none⟩ 1 'D' = .ok t ∧
      t.chars.length = 2 ∧
      t.chars.get? 1 = some 'D' ∧
      (∀ q : Nat, q ≠ 1 → t.chars.get? q = (['A', 'C'] : List Char).get? q) ∧
      t.id = none ∧ t.struct = none) ∧
    ProteinSequence.mutate ⟨['A', 'C'], some ['i'], none⟩ 5 'D'
      = .error .rangeError := by
  obtain ⟨h1, h2⟩ :=
    C4_mutate_spec ⟨['A', 'C'], some ['i'], none⟩ 1 'D'
  obtain ⟨t, ht, hlen, hget, hother, hid, hst⟩ :=
    h1 (by decide) (by decide) (by decide) (by decide)
  refine ⟨⟨t, ht, hlen, hget, hother, hid, hst⟩, ?_⟩
  exact (C4_mutate_spec ⟨['A', 'C'], some ['i'], none⟩ 5 'D').2 (by decide)

/-- Claim C8: every sequence produced by construction, mutate,
with_no_gaps, slicing, or apply_alignment_mapping consists only of
characters accepted by the validator; mutate with an in-range position
and an invalid symbol fails at the construction of the result. -/
theorem C8_validated_symbols :
    (∀ (cs : List Char) (id st : Option (List Char)) (t : ProteinSequence),
      mkProteinSequence cs id st = .ok t → t.chars.all validChar = true) ∧
    (∀ (s : ProteinSequence) (p : Int) (c : Char) (t : ProteinSequence),
      s.mutate p c = .ok t → t.chars.all validChar = true) ∧
    (∀ (s : ProteinSequence) (p : Int) (c : Char),
      0 ≤ p → p < (s.chars.length : Int) → validChar c = false →
      s.mutate p c = .error .invalidChar) ∧
    (∀ s : ProteinSequence, s.chars.all validChar = true →
      s.withNoGaps.chars.all validChar = true) ∧
    (∀ (s : ProteinSequence) (a b : Nat), s.chars.all validChar = true →
      (s.sliceAsProteinSequence a b).chars.all validChar = true) ∧
    (∀ (C : List ProteinSequence) (mapping : List (List Nat))
      (D : List ProteinSequence),
      ProteinSequences.applyAlignmentMapping C mapping = .ok D →
      ∀ t ∈ D, t.chars.all validChar = true) := by
  refine ⟨?_, ?_, ?_, ?_, ?_, ?_⟩
  · intro cs id st t h
    exact mk_ok_valid h
  · intro s p c t h
    unfold ProteinSequence.mutate at h
    split at h
    · cases h
    · exact mk_ok_valid h
  · intro s p c hp0 hplt hc
    unfold ProteinSequence.mutate
    rw [if_neg (by omega)]
    unfold mkProteinSequence
    rw [if_neg]
    intro hab
    have := List.all_eq_true.mp hab c (by simp)
    rw [hc] at this
    cases this
  · intro s hall
    rw [List.all_eq_true] at hall ⊢
    intro x hx
    exact hall x (List.mem_of_mem_filter hx)
  · intro s a b hall
    rw [List.all_eq_true] at hall ⊢
    intro x hx
    exact hall x (List.drop_subset _ _ (List.take_subset _ _ hx))
  · intro C mapping D h t ht
    unfold ProteinSequences.applyAlignmentMapping at h
    split at h
    · cases h
    · exact applyGo_ok_valid h t ht

/-! Lemmas about the per-member alignment-mapping walk. -/

theorem seqMappingGo_length : ∀ (cs : List Char) (a : Nat),
    (seqMappingGo cs a).length = cs.countP (fun c => !isGap c) := by
  intro cs
  induction cs with
  | nil => intro a; simp [seqMappingGo]
  | cons c rest ih =>
    intro a
    rw [List.countP_cons]
    cases hg : isGap c <;> simp [seqMappingGo, hg, ih]

theorem seqMappingGo_mem_bound : ∀ (cs : List Char) (a x : Nat),
    x ∈ seqMappingGo cs a → a ≤ x ∧ x < a + cs.length := by
  intro cs
  induction cs with
  | nil => intro a x hx; cases hx
  | cons c rest ih =>
    intro a x hx
    unfold seqMappingGo at hx
    cases hg : isGap c
    · rw [if_neg (by simp [hg])] at hx
      rcases List.mem_cons.mp hx with h1 | h2
      · subst h1
        simp only [List.length_cons]
        omega
      · have := ih (a + 1) x h2
        simp only [List.length_cons]
        omega
    · rw [if_pos hg] at hx
      have := ih (a + 1) x hx
      simp
      omega

theorem seqMappingGo_pairwise : ∀ (cs : List Char) (a : Nat),
    (seqMappingGo cs a).Pairwise (· < ·) := by
  intro cs
  induction cs with
  | nil => intro a; simp [seqMappingGo]
  | cons c rest ih =>
    intro a
    unfold seqMappingGo
    cases hg : isGap c
    · rw [if_neg (by simp [hg])]
      refine List.Pairwise.cons ?_ (ih (a + 1))
      intro y hy
      have := seqMappingGo_mem_bound rest (a + 1) y hy
      omega
    · rw [if_pos rfl]
      exact ih (a + 1)

theorem seqMappingGo_mem_iff : ∀ (cs : List Char) (a j : Nat),
    j ∈ seqMappingGo cs a ↔
      a ≤ j ∧ ∃ c, cs.get? (j - a) = some c ∧ isGap c = false := by
  intro cs
  induction cs with
  | nil =>
    intro a j
    simp [seqMappingGo]
  | cons c rest ih =>
    intro a j
    unfold seqMappingGo
    by_cases hja : j = a
    · subst hja
      cases hg : isGap c
      · rw [if_neg (by simp [hg])]
        simp [hg]
      · rw [if_pos rfl]
        rw [ih (j + 1) j]
        constructor
        · intro ⟨h1, _⟩
          omega
        · intro ⟨_, c', hc', hg'⟩
          simp at hc'
          rw [hc'] at hg
          rw [hg] at hg'
          cases hg'
    · have hsub : j - a = (j - (a + 1)) + 1 ∨ j < a := by omega
      cases hg : isGap c
      · rw [if_neg (by simp [hg])]
        rw [List.mem_cons, ih (a + 1) j]
        constructor
        · intro h
          rcases h with h1 | ⟨h2, c', hc', hg'⟩
          · exact absurd h1 hja
          · rcases hsub with hs | hs
            · rw [hs]
              exact ⟨by omega, c', by simpa using hc', hg'⟩
            · omega
        · intro ⟨h1, c', hc', hg'⟩
          right
          rcases hsub with hs | hs
          · rw [hs] at hc'
            simp only [List.get?_cons_succ] at hc'
            exact ⟨by omega, c', hc', hg'⟩
          · omega
      · rw [if_pos rfl]
        rw [ih (a + 1) j]
        constructor
        · intro ⟨h2, c', hc', hg'⟩
          rcases hsub with hs | hs
          · rw [hs]
            exact ⟨by omega, c', by simpa using hc', hg'⟩
          · omega
        · intro ⟨h1, c', hc', hg'⟩
          rcases hsub with hs | hs
          · rw [hs] at hc'
            simp only [List.get?_cons_succ] at hc'
            exact ⟨by omega, c', hc', hg'⟩
          · omega

theorem seqMappingGo_shift : ∀ (cs : List Char) (a : Nat),
    seqMappingGo cs (a + 1) = (seqMappingGo cs a).map (fun x => x + 1) := by
  intro cs
  induction cs with
  | nil => intro a; simp [seqMappingGo]
  | cons c rest ih =>
    intro a
    cases hg : isGap c <;> simp [seqMappingGo, hg, ih]

theorem seqMappingGo_getLast_mem : ∀ (cs : List Char) (a : Nat) (c : Char),
    cs.getLast? = some c → isGap c = false →
    (a + cs.length - 1) ∈ seqMappingGo cs a := by
  intro cs
  induction cs with
  | nil => intro a c h; cases h
  | cons c0 rest ih =>
    intro a c hl hg
    rcases rest with _ | ⟨r1, rest'⟩
    · rw [List.getLast?_singleton] at hl
      injection hl with hl
      subst hl
      unfold seqMappingGo
      rw [hg]
      simp [seqMappingGo]
    · rw [List.getLast?_cons_cons] at hl
      have hmem := ih (a + 1) c hl hg
      have heq : a + (c0 :: r1 :: rest').length - 1
          = (a + 1) + (r1 :: rest').length - 1 := by
        simp
        omega
      rw [heq]
      unfold seqMappingGo
      cases hg0 : isGap c0
      · rw [if_neg (by simp [hg0])]
        exact List.mem_cons_of_mem _ hmem
      · rw [if_pos rfl]
        exact hmem

theorem countP_not_isGap (cs : List Char) :
    cs.countP (fun c => !isGap c) = cs.length - cs.countP isGap := by
  induction cs with
  | nil => simp
  | cons c rest ih =>
    have hle : rest.countP isGap ≤ rest.length := List.countP_le_length _
    rw [List.countP_cons, List.countP_cons]
    cases hg : isGap c
    · simp [hg, ih]
      omega
    · simp [hg, ih]

/-- Claim C7: `get_alignment_mapping` fails exactly when the collection
is not aligned; when aligned it returns one list per member index, the
list for member i holding exactly the aligned-column positions of that
member's non-gap characters, with length equal to the member's
base_length and strictly increasing values. -/
theorem C7_alignment_mapping_spec :
    ∀ C : List ProteinSequence,
      ((ProteinSequences.getAlignmentMapping C = .error .stateError) ↔
        ProteinSequences.aligned C = false) ∧
      (ProteinSequences.aligned C = true →
        ∃ mp, ProteinSequences.getAlignmentMapping C = .ok mp ∧
          mp.length = C.length ∧
          ∀ k s, C.get? k = some s →
            mp.get? k = some s.seqMapping ∧
            s.seqMapping.length = s.baseLength ∧
            s.seqMapping.Pairwise (· < ·) ∧
            (∀ j, j ∈ s.seqMapping ↔
              ∃ c, s.chars.get? j = some c ∧ isGap c = false)) := by
  intro C
  constructor
  · unfold ProteinSequences.getAlignmentMapping
    cases ha : ProteinSequences.aligned C <;> simp
  · intro ha
    refine ⟨C.map (fun s => s.seqMapping), ?_, by simp, ?_⟩
    · unfold ProteinSequences.getAlignmentMapping
      rw [ha]
      rfl
    · intro k s hk
      refine ⟨?_, ?_, seqMappingGo_pairwise s.chars 0, ?_⟩
      · rw [List.get?_map, hk]
        rfl
      · unfold ProteinSequence.seqMapping ProteinSequence.baseLength
          ProteinSequence.numGaps
        rw [seqMappingGo_length, countP_not_isGap]
      · intro j
        unfold ProteinSequence.seqMapping
        rw [seqMappingGo_mem_iff]
        simp

/-- Witness for C7 at the spec's concrete scenario A-C / AGC, whose
mapping is 0,2 / 0,1,2. -/
theorem C7_alignment_mapping_spec_witness :
    ∃ mp, ProteinSequences.getAlignmentMapping
        [⟨['A', '-', 'C'], none, none⟩, ⟨['A', 'G', 'C'], none, none⟩]
        = .ok mp ∧
      mp.length = 2 ∧
      mp.get? 0 = some [0, 2] ∧ mp.get? 1 = some [0, 1, 2] := by
  obtain ⟨mp, hmp, hlen, hmem⟩ :=
    (C7_alignment_mapping_spec
      [⟨['A', '-', 'C'], none, none⟩, ⟨['A', 'G', 'C'], none, none⟩]).2
      (by decide)
  refine ⟨mp, hmp, hlen, ?_, ?_⟩
  · have := (hmem 0 ⟨['A', '-', 'C'], none, none⟩ rfl).1
    rw [this]
    rfl
  · have := (hmem 1 ⟨['A', 'G', 'C'], none, none⟩ rfl).1
    rw [this]
    rfl

/-- Unfolding of `mutated_positions` on an aligned non-empty
collection. -/
theorem mutatedPositions_cons (c0 : ProteinSequence) (t : List ProteinSequence)
    (ha : ProteinSequences.aligned (c0 :: t) = true) :
    ProteinSequences.mutatedPositions (c0 :: t) =
      some ((List.range c0.chars.length).filter
        (fun i => 1 < ((c0 :: t).map (fun s => s.chars.getD i ' ')).dedup.length)) := by
  unfold ProteinSequences.mutatedPositions
  rw [ha]
  rfl

/-- Claim C5: on an unaligned in-memory collection `mutated_positions`
warns and yields no result (modelled as None); on an aligned collection
it yields, in increasing column order, exactly the columns where two
members differ; on ACDE / AC-E it yields the single column 2. -/
theorem C5_mutated_positions_spec :
    (∀ C : List ProteinSequence, ProteinSequences.aligned C = false →
      ProteinSequences.mutatedPositions C = none) ∧
    (∀ (C : List ProteinSequence) (w : Nat),
      ProteinSequences.aligned C = true →
      ProteinSequences.width C = some w →
      ∃ l, ProteinSequences.mutatedPositions C = some l ∧
        l.Pairwise (· < ·) ∧
        (∀ i, i ∈ l ↔ i < w ∧
          ∃ s ∈ C, ∃ t ∈ C, s.chars.get? i ≠ t.chars.get? i)) ∧
    ProteinSequences.mutatedPositions
      [⟨['A', 'C', 'D', 'E'], none, none⟩, ⟨['A', 'C', '-', 'E'], none, none⟩]
      = some [2] := by
  refine ⟨?_, ?_, by rfl⟩
  · intro C hna
    unfold ProteinSequences.mutatedPositions
    rw [hna]
    rfl
  · intro C w ha hw
    have hlen := aligned_length_eq ha hw
    obtain ⟨hne, _⟩ := (aligned_iff C).mp ha
    rcases C with _ | ⟨c0, t⟩
    · exact absurd rfl hne
    have hw0 : c0.chars.length = w := hlen c0 (by simp)
    refine ⟨_, mutatedPositions_cons c0 t ha, ?_, ?_⟩
    · exact List.Pairwise.sublist (List.filter_sublist _)
        (List.pairwise_lt_range _)
    · intro i
      rw [List.mem_filter, List.mem_range, hw0, decide_eq_true_iff,
        one_lt_dedup_length_iff]
      constructor
      · intro ⟨hiw, h⟩
        simp only [List.mem_map] at h
        obtain ⟨a, ⟨s, hs, hsa⟩, b, ⟨u, hu, hub⟩, hab⟩ := h
        refine ⟨hiw, s, hs, u, hu, ?_⟩
        have hsl : i < s.chars.length := by rw [hlen s hs]; omega
        have hul : i < u.chars.length := by rw [hlen u hu]; omega
        rw [List.get?_eq_get hsl, List.get?_eq_get hul]
        intro hcon
        injection hcon with hcon
        apply hab
        rw [← hsa, ← hub]
        rw [List.getD_eq_get?, List.getD_eq_get?,
          List.get?_eq_get hsl, List.get?_eq_get hul]
        simpa using hcon
      · intro ⟨hiw, s, hs, u, hu, hne'⟩
        refine ⟨hiw, ?_⟩
        simp only [List.mem_map]
        have hsl : i < s.chars.length := by rw [hlen s hs]; omega
        have hul : i < u.chars.length := by rw [hlen u hu]; omega
        refine ⟨_, ⟨s, hs, rfl⟩, _, ⟨u, hu, rfl⟩, ?_⟩
        rw [List.getD_eq_get?, List.getD_eq_get?,
          List.get?_eq_get hsl, List.get?_eq_get hul]
        simp only [Option.getD_some]
        intro hcon
        apply hne'
        rw [List.get?_eq_get hsl, List.get?_eq_get hul, hcon]

/-- Witness for C5 at the concrete aligned pair ACDE / AC-E and at a
concrete unaligned pair. -/
theorem C5_mutated_positions_spec_witness :
    ProteinSequences.mutatedPositions
      [⟨['A', 'C'], none, none⟩, ⟨['A'], none, none⟩] = none ∧
    (∃ l, ProteinSequences.mutatedPositions
        [⟨['A', 'C', 'D', 'E'], none, none⟩, ⟨['A', 'C', '-', 'E'], none, none⟩]
        = some l ∧ l.Pairwise (· < ·) ∧
        (∀ i, i ∈ l ↔ i < 4 ∧
          ∃ s ∈ [(⟨['A', 'C', 'D', 'E'], none, none⟩ : ProteinSequence),
                 ⟨['A', 'C', '-', 'E'], none, none⟩],
          ∃ t ∈ [(⟨['A', 'C', 'D', 'E'], none, none⟩ : ProteinSequence),
                 ⟨['A', 'C', '-', 'E'], none, none⟩],
            s.chars.get? i ≠ t.chars.get? i)) := by
  constructor
  · exact C5_mutated_positions_spec.1 _ (by decide)
  · exact C5_mutated_positions_spec.2.1 _ 4 (by decide) (by decide)

/-! Lemmas about the batch iteration. -/

theorem pyRangeUp_pos {stop step i : Nat} (h1 : 0 < step) (h2 : i < stop) :
    pyRangeUp stop step i = i :: pyRangeUp stop step (i + step) := by
  rw [pyRangeUp]
  rw [dif_pos ⟨h1, h2⟩]

theorem pyRangeUp_nil {stop step i : Nat} (h : ¬(0 < step ∧ i < stop)) :
    pyRangeUp stop step i = [] := by
  rw [pyRangeUp]
  rw [dif_neg h]

theorem pyRangeUp_shift (step : Nat) (hs : 0 < step) :
    ∀ (k stop i : Nat), stop - i ≤ k →
      pyRangeUp stop step (i + step) =
        (pyRangeUp (stop - step) step i).map (fun x => x + step) := by
  intro k
  induction k with
  | zero =>
    intro stop i hk
    rw [pyRangeUp_nil (by omega), pyRangeUp_nil (by omega)]
    rfl
  | succ k ih =>
    intro stop i hk
    by_cases hlt : i < stop - step
    · rw [pyRangeUp_pos hs (by omega), pyRangeUp_pos hs hlt]
      simp only [List.map_cons]
      congr 1
      exact ih stop (i + step) (by omega)
    · rw [pyRangeUp_nil (by omega), pyRangeUp_nil (by omega)]
      rfl

theorem pyRangeUp_add {step : Nat} (hs : 0 < step) (stop i : Nat) :
    pyRangeUp stop step (i + step) =
      (pyRangeUp (stop - step) step i).map (fun x => x + step) :=
  pyRangeUp_shift step hs (stop - i) stop i le_rfl

theorem iterBatches_nil {n : Nat} (hn : 0 < n) :
    ProteinSequences.iterBatches [] n = some [] := by
  unfold ProteinSequences.iterBatches
  rw [if_neg (by omega), pyRangeUp_nil (by simp)]
  rfl

theorem iterBatches_cons {C : List ProteinSequence} {n : Nat} (hn : 0 < n)
    (hC : C ≠ []) :
    ProteinSequences.iterBatches C n =
      (ProteinSequences.iterBatches (C.drop n) n).map
        (fun bs => C.take n :: bs) := by
  unfold ProteinSequences.iterBatches
  rw [if_neg (by omega), if_neg (by omega)]
  have hlen : 0 < C.length := List.length_pos.mpr hC
  have hsh := pyRangeUp_add hn C.length 0
  rw [show (0 : Nat) + n = n from by omega] at hsh
  rw [pyRangeUp_pos hn hlen, show (0 : Nat) + n = n from by omega,
    List.length_drop]
  show some _ = some _
  congr 1
  show (0 :: pyRangeUp C.length n n).map (fun i => (C.drop i).take n)
      = C.take n :: (pyRangeUp (C.length - n) n 0).map
          (fun i => ((C.drop n).drop i).take n)
  rw [List.map_cons, List.drop_zero]
  congr 1
  rw [hsh, List.map_map]
  apply List.map_congr_left
  intro x _
  simp only [Function.comp]
  rw [Nat.add_comm x n, ← List.drop_drop]

theorem iterBatches_spec : ∀ (L : Nat) (C : List ProteinSequence) (n : Nat),
    C.length ≤ L → 0 < n →
    ∃ bs, ProteinSequences.iterBatches C n = some bs ∧
      bs.length = (C.length + n - 1) / n ∧
      (∀ b ∈ bs.dropLast, b.length = n) ∧
      (C ≠ [] → ∃ lb, bs.getLast? = some lb ∧
        lb.length = (if C.length % n = 0 then n else C.length % n)) ∧
      bs.flatten = C := by
  intro L
  induction L with
  | zero =>
    intro C n hL hn
    have hC : C = [] := List.length_eq_zero.mp (by omega)
    subst hC
    refine ⟨[], iterBatches_nil hn, ?_, by simp, fun h => absurd rfl h, by simp⟩
    simp only [List.length_nil]
    rw [Nat.div_eq_of_lt (by omega)]
  | succ L ih =>
    intro C n hL hn
    rcases eq_or_ne C [] with hC | hC
    · subst hC
      refine ⟨[], iterBatches_nil hn, ?_, by simp, fun h => absurd rfl h, by simp⟩
      simp only [List.length_nil]
      rw [Nat.div_eq_of_lt (by omega)]
    · obtain ⟨bs', hbs', hcount, hsizes, hlast, hflat⟩ :=
        ih (C.drop n) n (by rw [List.length_drop]; omega) hn
      have hpos : 0 < C.length := List.length_pos.mpr hC
      have hnil_iff : bs' = [] → C.drop n = [] := by
        intro hb
        by_contra hdn
        rw [iterBatches_cons hn hdn] at hbs'
        rw [hb] at hbs'
        rcases hx : ProteinSequences.iterBatches ((C.drop n).drop n) n with _ | bs2
        · rw [hx] at hbs'; cases hbs'
        · rw [hx] at hbs'
          simp at hbs'
      refine ⟨C.take n :: bs', ?_, ?_, ?_, ?_, ?_⟩
      · rw [iterBatches_cons hn hC, hbs']
        rfl
      · simp only [List.length_cons, hcount, List.length_drop]
        rcases le_or_lt C.length n with hle | hlt
        · have h1 : C.length - n = 0 := by omega
          rw [h1]
          have h2 : (0 + n - 1) / n = 0 := Nat.div_eq_of_lt (by omega)
          rw [h2]
          have h3 : (C.length + n - 1) / n = 1 :=
            Nat.div_eq_of_lt_le (by omega) (by omega)
          omega
        · have h4 : C.length - n + n - 1 + n = C.length + n - 1 := by omega
          rw [← h4, Nat.add_div_right _ hn]
      · rcases eq_or_ne bs' [] with hb | hb
        · subst hb
          simp
        · rw [List.dropLast_cons_of_ne_nil hb]
          intro b hbmem
          rcases List.mem_cons.mp hbmem with h1 | h2
          · subst h1
            have hd : C.drop n ≠ [] := fun hdn => hb (by
              rw [hdn, iterBatches_nil hn] at hbs'
              injection hbs' with hh
              exact hh.symm)
            have hlt : n < C.length := by
              have := List.length_pos.mpr hd
              rw [List.length_drop] at this
              omega
            rw [List.length_take]
            omega
          · exact hsizes b h2
      · intro _
        rcases eq_or_ne bs' [] with hb | hb
        · subst hb
          have hd : C.drop n = [] := hnil_iff rfl
          have hlen2 : C.length ≤ n := by
            have := congrArg List.length hd
            rw [List.length_drop] at this
            simp at this
            omega
          refine ⟨C.take n, by rw [List.getLast?_singleton], ?_⟩
          rw [List.length_take]
          rcases eq_or_ne C.length n with he | hne2
          · rw [he]
            simp
          · have hlt : C.length < n := by omega
            rw [Nat.mod_eq_of_lt hlt, if_neg (by omega)]
            omega
        · have hd : C.drop n ≠ [] := fun hdn => hb (by
            rw [hdn, iterBatches_nil hn] at hbs'
            injection hbs' with hh
            exact hh.symm)
          obtain ⟨lb, hlb, hlblen⟩ := hlast hd
          have hnle : n < C.length := by
            have := List.length_pos.mpr hd
            rw [List.length_drop] at this
            omega
          refine ⟨lb, ?_, ?_⟩
          · rcases bs' with _ | ⟨b0, bt⟩
            · exact absurd rfl hb
            · rw [List.getLast?_cons_cons]
              exact hlb
          · rw [hlblen, List.length_drop]
            have hmod : (C.length - n) % n = C.length % n := by
              conv_rhs => rw [show C.length = C.length - n + n from by omega]
              rw [Nat.add_mod_right]
            rw [hmod]
      · rw [List.flatten_cons, hflat, List.take_append_drop]

/-- Claim C6: for a positive batch size n, `iter_batches` yields exactly
`ceil(L/n)` batches; all but the last have n members, the last has
`L mod n` members when that is nonzero (n when it is zero), and the
in-order concatenation of the batches is the original collection (hence
contiguity, disjointness and order). -/
theorem C6_iter_batches_spec :
    ∀ (C : List ProteinSequence) (n : Nat), 1 ≤ n →
      ∃ bs, ProteinSequences.iterBatches C n = some bs ∧
        bs.length = (C.length + n - 1) / n ∧
        (∀ b ∈ bs.dropLast, b.length = n) ∧
        (C ≠ [] → ∃ lb, bs.getLast? = some lb ∧
          lb.length = (if C.length % n = 0 then n else C.length % n)) ∧
        bs.flatten = C :=
  fun C n hn => iterBatches_spec C.length C n le_rfl hn

/-- Witness for C6 at a three-member collection and batch size two:
two batches, the first full, the last of one member. -/
theorem C6_iter_batches_spec_witness :
    ∃ bs, ProteinSequences.iterBatches
        [⟨['A'], none, none⟩, ⟨['C'], none, none⟩, ⟨['D'], none, none⟩] 2
        = some bs ∧
      bs.length = 2 ∧
      (∀ b ∈ bs.dropLast, b.length = 2) ∧
      ([(⟨['A'], none, none⟩ : ProteinSequence), ⟨['C'], none, none⟩,
        ⟨['D'], none, none⟩] ≠ [] →
        ∃ lb, bs.getLast? = some lb ∧ lb.length = 1) ∧
      bs.flatten
        = [⟨['A'], none, none⟩, ⟨['C'], none, none⟩, ⟨['D'], none, none⟩] :=
  C6_iter_batches_spec
    [⟨['A'], none, none⟩, ⟨['C'], none, none⟩, ⟨['D'], none, none⟩] 2
    (by decide)

/-! Lemmas about the scatter loop of apply_alignment_mapping. -/

theorem isGap_iff (c : Char) : isGap c = true ↔ c = '-' := by
  simp [isGap, GAP_CHARACTERS]

theorem max?_eq_some_of {l : List Nat} {x : Nat} (hx : x ∈ l)
    (hb : ∀ y ∈ l, y ≤ x) : l.max? = some x := by
  rw [List.max?_eq_some_iff (fun a => le_refl a) (fun a b => max_choice a b)
    (fun a b c => Nat.max_le)]
  exact ⟨hx, hb⟩

theorem scatterGo_vals_shift (c : Char) (vals : List Char) :
    ∀ (m : List Nat) (op : Nat) (buf : List Char),
      scatterGo (c :: vals) (op + 1) m buf = scatterGo vals op m buf := by
  intro m
  induction m with
  | nil => intro op buf; rfl
  | cons ap m ih =>
    intro op buf
    unfold scatterGo
    rw [List.getD_cons_succ]
    exact ih (op + 1) _

theorem scatterGo_map_succ (vals : List Char) :
    ∀ (m : List Nat) (op : Nat) (x : Char) (buf : List Char),
      scatterGo vals op (m.map (fun a => a + 1)) (x :: buf)
        = x :: scatterGo vals op m buf := by
  intro m
  induction m with
  | nil => intro op x buf; rfl
  | cons ap m ih =>
    intro op x buf
    simp only [List.map_cons]
    unfold scatterGo
    rw [List.set_cons_succ]
    exact ih (op + 1) x _

theorem scatter_reconstruct : ∀ cs : List Char,
    scatterGo (cs.filter (fun c => !isGap c)) 0 (seqMappingGo cs 0)
      (List.replicate cs.length '-') = cs := by
  intro cs
  induction cs with
  | nil => rfl
  | cons c rest ih =>
    simp only [List.length_cons, List.replicate_succ]
    cases hg : isGap c
    · rw [List.filter_cons_of_pos (by simp [hg])]
      unfold seqMappingGo
      rw [if_neg (by simp [hg])]
      rw [seqMappingGo_shift]
      unfold scatterGo
      rw [List.getD_cons_zero, List.set_cons_zero]
      rw [scatterGo_vals_shift, scatterGo_map_succ, ih]
    · have hc : c = '-' := (isGap_iff c).mp hg
      rw [List.filter_cons_of_neg (by simp [hg])]
      unfold seqMappingGo
      rw [if_pos hg]
      rw [seqMappingGo_shift]
      rw [scatterGo_map_succ, ih, hc]

theorem withNoGaps_chars (s : ProteinSequence) :
    s.withNoGaps.chars = s.chars.filter (fun c => !isGap c) := rfl

theorem hasGaps_withNoGaps (s : ProteinSequence) :
    s.withNoGaps.hasGaps = false := by
  unfold ProteinSequence.hasGaps ProteinSequence.withNoGaps
  rw [Bool.eq_false_iff]
  intro hany
  rw [List.any_eq_true] at hany
  obtain ⟨x, hx, hgx⟩ := hany
  have hf := (List.mem_filter.mp hx).2
  rw [hgx] at hf
  cases hf

theorem hasGapsC_withNoGaps (C : List ProteinSequence) :
    ProteinSequences.hasGaps (ProteinSequences.withNoGaps C) = false := by
  unfold ProteinSequences.hasGaps ProteinSequences.withNoGaps
  rw [Bool.eq_false_iff]
  intro hany
  rw [List.any_eq_true] at hany
  obtain ⟨s, hs, hgs⟩ := hany
  obtain ⟨s0, _, hs0⟩ := List.mem_map.mp hs
  rw [← hs0] at hgs
  rw [hasGaps_withNoGaps s0] at hgs
  cases hgs

theorem applyOne_roundtrip (s : ProteinSequence) (w : Nat)
    (hw : s.chars.length = w) (h2 : 2 ≤ w)
    (hlast : ∃ c, s.chars.getLast? = some c ∧ isGap c = false)
    (hv : s.chars.all validChar = true) :
    applyOne s.withNoGaps s.seqMapping = .ok s := by
  obtain ⟨c, hlc, hgc⟩ := hlast
  have hwmem : (w - 1) ∈ seqMappingGo s.chars 0 := by
    have hm := seqMappingGo_getLast_mem s.chars 0 c hlc hgc
    rw [show 0 + s.chars.length - 1 = w - 1 from by omega] at hm
    exact hm
  have hbound : ∀ y ∈ seqMappingGo s.chars 0, y ≤ w - 1 := by
    intro y hy
    have := seqMappingGo_mem_bound s.chars 0 y hy
    omega
  have hmax : ((ProteinSequence.seqMapping s).filter (fun x => x ≠ 0)).max?
      = some (w - 1) := by
    apply max?_eq_some_of
    · rw [List.mem_filter]
      refine ⟨hwmem, ?_⟩
      rw [decide_eq_true_iff]
      omega
    · intro y hy
      exact hbound y (List.mem_of_mem_filter hy)
  have hlen_eq : s.withNoGaps.chars.length
      = (ProteinSequence.seqMapping s).length := by
    rw [withNoGaps_chars, ProteinSequence.seqMapping, seqMappingGo_length,
      List.countP_eq_length_filter]
  unfold applyOne
  simp only [hmax]
  rw [if_neg (by omega)]
  rw [show w - 1 + 1 = s.chars.length from by omega]
  rw [withNoGaps_chars]
  show mkProteinSequence
    (scatterGo (s.chars.filter (fun c => !isGap c)) 0 (seqMappingGo s.chars 0)
      (List.replicate s.chars.length '-')) s.withNoGaps.id s.withNoGaps.struct
    = .ok s
  rw [scatter_reconstruct, mk_ok_of_valid hv]
  cases s
  rfl

theorem applyGo_roundtrip (full : List (List Nat)) (w : Nat) (h2 : 2 ≤ w) :
    ∀ (rest : List ProteinSequence) (i : Nat),
      (∀ k s, rest.get? k = some s → full.get? (i + k) = some s.seqMapping) →
      (∀ s ∈ rest, s.chars.length = w ∧
        (∃ c, s.chars.getLast? = some c ∧ isGap c = false) ∧
        s.chars.all validChar = true) →
      applyGo full i (ProteinSequences.withNoGaps rest) = .ok rest := by
  intro rest
  induction rest with
  | nil => intro i _ _; rfl
  | cons s r ih =>
    intro i hmap hgood
    have h0 := hmap 0 s rfl
    rw [Nat.add_zero] at h0
    obtain ⟨hlen, hlast, hv⟩ := hgood s (by simp)
    have hone := applyOne_roundtrip s w hlen h2 hlast hv
    have hrec : applyGo full (i + 1) (ProteinSequences.withNoGaps r)
        = .ok r := by
      apply ih (i + 1)
      · intro k s' hk
        have hm := hmap (k + 1) s' (by simpa using hk)
        rw [show i + (k + 1) = i + 1 + k from by omega] at hm
        exact hm
      · intro s' hs'
        exact hgood s' (by simp [hs'])
    unfold ProteinSequences.withNoGaps at hrec ⊢
    simp only [List.map_cons]
    unfold applyGo
    simp only [h0, hone, hrec]

/-- Claim C1 (amended): for an aligned collection of width at least two
in which no member ends in a gap column, deriving the mapping and
applying it to the gap-free form reproduces the collection exactly; in
particular this holds for every aligned gap-free collection of width at
least two. -/
theorem C1_apply_derive_roundtrip :
    ∀ (C : List ProteinSequence) (w : Nat),
      ProteinSequences.aligned C = true →
      ProteinSequences.width C = some w →
      2 ≤ w →
      (∀ s ∈ C, ∃ c, s.chars.getLast? = some c ∧ isGap c = false) →
      (∀ s ∈ C, s.chars.all validChar = true) →
      ProteinSequences.getAlignmentMapping C
        = .ok (C.map (fun s => s.seqMapping)) ∧
      ProteinSequences.applyAlignmentMapping (ProteinSequences.withNoGaps C)
        (C.map (fun s => s.seqMapping)) = .ok C := by
  intro C w ha hw h2 hlast hv
  have hlen := aligned_length_eq ha hw
  constructor
  · unfold ProteinSequences.getAlignmentMapping
    rw [ha]
    rfl
  · unfold ProteinSequences.applyAlignmentMapping
    rw [if_neg (by rw [hasGapsC_withNoGaps C]; exact Bool.false_ne_true)]
    apply applyGo_roundtrip _ w h2
    · intro k s hk
      rw [Nat.zero_add, List.get?_map, hk]
      rfl
    · intro s hs
      exact ⟨hlen s hs, hlast s hs, hv s hs⟩

/-- Counterexample to C1 as stated: the aligned collection AC- / AAC
derives the mapping 0,1 / 0,1,2, but applying it to the gap-free forms
AC / AAC reconstructs AC, losing the trailing gap column, so the result
differs from the original collection. -/
theorem C1_counterexample :
    ProteinSequences.aligned
      [⟨['A', 'C', '-'], none, none⟩, ⟨['A', 'A', 'C'], none, none⟩] = true ∧
    ProteinSequences.getAlignmentMapping
      [⟨['A', 'C', '-'], none, none⟩, ⟨['A', 'A', 'C'], none, none⟩]
      = .ok [[0, 1], [0, 1, 2]] ∧
    ProteinSequences.applyAlignmentMapping
      (ProteinSequences.withNoGaps
        [⟨['A', 'C', '-'], none, none⟩, ⟨['A', 'A', 'C'], none, none⟩])
      [[0, 1], [0, 1, 2]]
      = .ok [⟨['A', 'C'], none, none⟩, ⟨['A', 'A', 'C'], none, none⟩] ∧
    [(⟨['A', 'C'], none, none⟩ : ProteinSequence),
      ⟨['A', 'A', 'C'], none, none⟩]
      ≠ [⟨['A', 'C', '-'], none, none⟩, ⟨['A', 'A', 'C'], none, none⟩] :=
  ⟨by decide, rfl, rfl, by decide⟩

/-- Witness for the amended C1 at the aligned width-4 collection
ACDE / AC-E, whose members end in the non-gap column E. -/
theorem C1_apply_derive_roundtrip_witness :
    ProteinSequences.getAlignmentMapping
      [⟨['A', 'C', 'D', 'E'], none, none⟩, ⟨['A', 'C', '-', 'E'], none, none⟩]
      = .ok ([(⟨['A', 'C', 'D', 'E'], none, none⟩ : ProteinSequence),
              ⟨['A', 'C', '-', 'E'], none, none⟩].map
          (fun s => s.seqMapping)) ∧
    ProteinSequences.applyAlignmentMapping
      (ProteinSequences.withNoGaps
        [⟨['A', 'C', 'D', 'E'], none, none⟩, ⟨['A', 'C', '-', 'E'], none, none⟩])
      ([(⟨['A', 'C', 'D', 'E'], none, none⟩ : ProteinSequence),
        ⟨['A', 'C', '-', 'E'], none, none⟩].map (fun s => s.seqMapping))
      = .ok [⟨['A', 'C', 'D', 'E'], none, none⟩,
             ⟨['A', 'C', '-', 'E'], none, none⟩] :=
  C1_apply_derive_roundtrip
    [⟨['A', 'C', 'D', 'E'], none, none⟩, ⟨['A', 'C', '-', 'E'], none, none⟩]
    4 (by decide) (by decide) (by decide)
    (by
      intro s hs
      rcases List.mem_cons.mp hs with rfl | hs2
      · exact ⟨'E', rfl, rfl⟩
      · rcases List.mem_cons.mp hs2 with rfl | hs3
        · exact ⟨'E', rfl, rfl⟩
        · cases hs3)
    (by decide)

/-! Lemmas about the modelled flat-file reader and writer. -/

theorem validChar_not_ws {c : Char} (h : validChar c = true) :
    c.isWhitespace = false := by
  by_contra hws
  rw [Bool.not_eq_false] at hws
  have hc : ((c = ' ' ∨ c = '\t') ∨ c = '\r') ∨ c = '\n' := by
    simpa [Char.isWhitespace] using hws
  rcases hc with ((rfl | rfl) | rfl) | rfl <;> exact absurd h (by decide)

theorem validChar_ne_marker {c : Char} (h : validChar c = true) : c ≠ '>' := by
  intro heq
  subst heq
  exact absurd h (by decide)

theorem stripAllWS_of_valid {cs : List Char} (hv : cs.all validChar = true) :
    stripAllWS cs = cs := by
  unfold stripAllWS
  rw [List.filter_eq_self]
  intro a ha
  rw [Bool.not_eq_true']
  exact validChar_not_ws (List.all_eq_true.mp hv a ha)

theorem dropWhile_eq_self_of_all {p : Char → Bool} {cs : List Char}
    (h : ∀ c ∈ cs, p c = false) : cs.dropWhile p = cs := by
  cases cs with
  | nil => rfl
  | cons c t =>
    rw [List.dropWhile_cons, h c (by simp)]
    simp

theorem takeWhile_eq_self_of_all {p : Char → Bool} :
    ∀ {cs : List Char}, (∀ c ∈ cs, p c = true) → cs.takeWhile p = cs := by
  intro cs
  induction cs with
  | nil => intro _; rfl
  | cons c t ih =>
    intro h
    rw [List.takeWhile_cons, h c (by simp)]
    simp only [if_true]
    rw [ih (fun x hx => h x (by simp [hx]))]

theorem firstToken_of_no_ws {i : List Char}
    (hws : ∀ c ∈ i, c.isWhitespace = false) : firstToken i = i := by
  unfold firstToken
  rw [dropWhile_eq_self_of_all hws]
  apply takeWhile_eq_self_of_all
  intro c hc
  rw [Bool.not_eq_true']
  exact hws c hc

theorem pyStripChars_of_valid {cs : List Char}
    (hv : cs.all validChar = true) : pyStripChars cs = cs := by
  unfold pyStripChars
  have h1 : ∀ c ∈ cs, c.isWhitespace = false :=
    fun c hc => validChar_not_ws (List.all_eq_true.mp hv c hc)
  rw [dropWhile_eq_self_of_all h1]
  rw [dropWhile_eq_self_of_all (fun c hc => h1 c (List.mem_reverse.mp hc))]
  rw [List.reverse_reverse]

theorem head?_content_ne_marker {cs : List Char}
    (hv : cs.all validChar = true) : ¬(cs.head? = some '>') := by
  cases hcs : cs with
  | nil => simp
  | cons c t =>
    simp only [List.head?_cons]
    intro heq
    injection heq with heq
    have hvc := List.all_eq_true.mp hv c (by rw [hcs]; simp)
    exact validChar_ne_marker hvc heq

/-- Well-formed record identifier: non-empty and free of whitespace, so
that the header token parse recovers it exactly. -/
def goodId (i : List Char) : Prop :=
  i ≠ [] ∧ ∀ c ∈ i, c.isWhitespace = false

theorem readFastaGo_cons_header_none {l : List Char} {ls : List (List Char)}
    (hl : l.head? = some '>') :
    readFastaGo none (l :: ls)
      = readFastaGo (some (firstToken (l.drop 1), [])) ls := by
  conv_lhs => unfold readFastaGo
  rw [if_pos hl]

theorem readFastaGo_cons_header_some {r : List Char × List Char}
    {l : List Char} {ls : List (List Char)} (hl : l.head? = some '>') :
    readFastaGo (some r) (l :: ls)
      = r :: readFastaGo (some (firstToken (l.drop 1), [])) ls := by
  conv_lhs => unfold readFastaGo
  rw [if_pos hl]

theorem readFastaGo_cons_content_some {r : List Char × List Char}
    {l : List Char} {ls : List (List Char)} (hl : ¬(l.head? = some '>')) :
    readFastaGo (some r) (l :: ls)
      = readFastaGo (some (r.1, r.2 ++ stripAllWS l)) ls := by
  conv_lhs => unfold readFastaGo
  rw [if_neg hl]

theorem readFastaGo_writeFasta :
    ∀ records : List (List Char × List Char),
      (∀ r ∈ records, goodId r.1) →
      (∀ r ∈ records, r.2.all validChar = true) →
      (∀ r0, readFastaGo (some r0) (writeFasta records) = r0 :: records) ∧
      readFastaGo none (writeFasta records) = records := by
  intro records
  induction records with
  | nil => intro _ _; exact ⟨fun r0 => rfl, rfl⟩
  | cons r rest ih =>
    intro hid hc
    obtain ⟨ihsome, ihnone⟩ := ih (fun x hx => hid x (by simp [hx]))
      (fun x hx => hc x (by simp [hx]))
    have hgood := hid r (by simp)
    have hcont := hc r (by simp)
    have hWcons : writeFasta (r :: rest)
        = ('>' :: r.1) :: r.2 :: writeFasta rest := by
      unfold writeFasta
      rw [List.flatMap_cons]
      rfl
    have hhead : ('>' :: r.1).head? = some '>' := rfl
    have htok : firstToken (('>' :: r.1).drop 1) = r.1 := by
      show firstToken r.1 = r.1
      exact firstToken_of_no_ws hgood.2
    have hnc : ¬(r.2.head? = some '>') := head?_content_ne_marker hcont
    have hstrip : stripAllWS r.2 = r.2 := stripAllWS_of_valid hcont
    have hbody : readFastaGo (some (firstToken (('>' :: r.1).drop 1), []))
        (r.2 :: writeFasta rest) = r :: rest := by
      rw [htok, readFastaGo_cons_content_some hnc]
      simp only [List.nil_append]
      rw [hstrip, ihsome (r.1, r.2)]
    constructor
    · intro r0
      rw [hWcons, readFastaGo_cons_header_some hhead, hbody]
    · rw [hWcons, readFastaGo_cons_header_none hhead, hbody]

theorem seqsOfRecords_ok : ∀ records : List (List Char × List Char),
    (∀ r ∈ records, r.2.all validChar = true) →
    seqsOfRecords records
      = .ok (records.map (fun r => ⟨r.2, some r.1, none⟩)) := by
  intro records
  induction records with
  | nil => intro _; rfl
  | cons r rest ih =>
    intro hc
    unfold seqsOfRecords
    simp only [mk_ok_of_valid (hc r (by simp)),
      ih (fun x hx => hc x (by simp [hx])), List.map_cons]

/-- Claim C3 (amended): for a collection whose members all carry a
non-empty whitespace-free identifier, writing to the flat file format
and reading back yields a collection of the same length, in order, with
identical character content and identical identifier per member. -/
theorem C3_fasta_roundtrip :
    ∀ C : List ProteinSequence,
      (∀ s ∈ C, s.chars.all validChar = true) →
      (∀ s ∈ C, ∃ i, s.id = some i ∧ i ≠ [] ∧
        ∀ c ∈ i, c.isWhitespace = false) →
      ∃ D, ProteinSequences.fromFasta (ProteinSequences.toFasta C) = .ok D ∧
        D.length = C.length ∧
        ∀ k s, C.get? k = some s →
          ∃ t, D.get? k = some t ∧ t.chars = s.chars ∧ t.id = s.id := by
  intro C hv hid
  have hidOr : ∀ s ∈ C, ∃ i, s.id = some i ∧ idOrHash s = i := by
    intro s hs
    obtain ⟨i, hi, hine, _⟩ := hid s hs
    refine ⟨i, hi, ?_⟩
    unfold idOrHash
    simp only [hi]
    rw [if_neg (by simpa using hine)]
  have hidG : ∀ r ∈ C.map (fun s => (idOrHash s, s.chars)), goodId r.1 := by
    intro r hr
    obtain ⟨s, hs, hsr⟩ := List.mem_map.mp hr
    obtain ⟨i, hi, hine, hiws⟩ := hid s hs
    obtain ⟨i', hi', hor⟩ := hidOr s hs
    rw [hi] at hi'
    injection hi' with hi'
    rw [← hsr]
    show goodId (idOrHash s)
    rw [hor, ← hi']
    exact ⟨hine, hiws⟩
  have hcG : ∀ r ∈ C.map (fun s => (idOrHash s, s.chars)),
      r.2.all validChar = true := by
    intro r hr
    obtain ⟨s, hs, hsr⟩ := List.mem_map.mp hr
    rw [← hsr]
    exact hv s hs
  have hread : readFasta (ProteinSequences.toFasta C)
      = C.map (fun s => (idOrHash s, s.chars)) :=
    (readFastaGo_writeFasta _ hidG hcG).2
  refine ⟨(C.map (fun s => (idOrHash s, s.chars))).map
    (fun r => ⟨r.2, some r.1, none⟩), ?_, by simp, ?_⟩
  · unfold ProteinSequences.fromFasta
    rw [hread]
    exact seqsOfRecords_ok _ hcG
  · intro k s hk
    have hsC : s ∈ C := List.get?_mem hk
    obtain ⟨i, hi, hor⟩ := hidOr s hsC
    refine ⟨⟨s.chars, some (idOrHash s), none⟩, ?_, rfl, ?_⟩
    · rw [List.get?_map, List.get?_map, hk]
      rfl
    · show some (idOrHash s) = s.id
      rw [hor, hi]

/-- Counterexample to C3 as stated: a member without an identifier is
exported under its content hash, so reading back yields a member whose
identifier is the hash string rather than the original missing one. -/
theorem C3_counterexample :
    ProteinSequences.fromFasta
      (ProteinSequences.toFasta [⟨['A'], none, none⟩])
      = .ok [⟨['A'], some ['2', '8', '2'], none⟩] ∧
    some ['2', '8', '2'] ≠ (⟨['A'], none, none⟩ : ProteinSequence).id :=
  ⟨rfl, by decide⟩

/-- Witness for the amended C3 at a two-member collection with proper
identifiers. -/
theorem C3_fasta_roundtrip_witness :
    ∃ D, ProteinSequences.fromFasta
        (ProteinSequences.toFasta
          [⟨['A', 'C'], some ['a'], none⟩, ⟨['D', 'E'], some ['b'], none⟩])
        = .ok D ∧
      D.length = 2 ∧
      ∀ k s,
        [(⟨['A', 'C'], some ['a'], none⟩ : ProteinSequence),
         ⟨['D', 'E'], some ['b'], none⟩].get? k = some s →
        ∃ t, D.get? k = some t ∧ t.chars = s.chars ∧ t.id = s.id :=
  C3_fasta_roundtrip
    [⟨['A', 'C'], some ['a'], none⟩, ⟨['D', 'E'], some ['b'], none⟩]
    (by decide)
    (by
      intro s hs
      rcases List.mem_cons.mp hs with rfl | hs2
      · exact ⟨['a'], rfl, by decide, by decide⟩
      · rcases List.mem_cons.mp hs2 with rfl | hs3
        · exact ⟨['b'], rfl, by decide, by decide⟩
        · cases hs3)

/-! The record-level characterisation of the file index. -/

/-- The byte offset of each record of a well-formed single-content-line
file: a record occupies `|id| + |content| + 3` bytes (marker, two
newlines). -/
def withOffsets : List (List Char × List Char) → Nat →
    List (Nat × List Char × List Char)
  | [], _ => []
  | (i, s) :: rest, pos =>
    (pos, i, s) :: withOffsets rest (pos + (i.length + s.length + 3))

/-- The index entry `_create_index` computes for a single-content-line
record whose header starts at byte offset `pos`. -/
def entryOf (pos : Nat) (i s : List Char) : IndexEntry :=
  ⟨pos + (i.length + 2), s.length, s.contains '-',
    (s.filter (fun c => c ≠ '-')).length⟩

/-- The record-level restatement of the `_create_index` line fold. -/
def idxFold : List (List Char × List Char) → Nat →
    List (List Char × IndexEntry) → List (List Char × IndexEntry)
  | [], _, acc => acc
  | (i, s) :: rest, pos, acc =>
    idxFold rest (pos + (i.length + s.length + 3))
      (dictInsert acc i (entryOf pos i s))

/-- The insertion-ordered keys of the index. -/
def keysOf (d : List (List Char × IndexEntry)) : List (List Char) :=
  d.map (fun p => p.1)

theorem withOffsets_map_record : ∀ (records : List (List Char × List Char))
    (b : Nat), (withOffsets records b).map (fun t => t.2) = records := by
  intro records
  induction records with
  | nil => intro b; rfl
  | cons r rest ih =>
    rcases r with ⟨i, s⟩
    intro b
    unfold withOffsets
    rw [List.map_cons, ih]

theorem withOffsets_length : ∀ (records : List (List Char × List Char))
    (b : Nat), (withOffsets records b).length = records.length := by
  intro records
  induction records with
  | nil => intro b; rfl
  | cons r rest ih =>
    rcases r with ⟨i, s⟩
    intro b
    unfold withOffsets
    rw [List.length_cons, ih, List.length_cons]

theorem withOffsets_snd_mem {records : List (List Char × List Char)}
    {b : Nat} {t : Nat × List Char × List Char}
    (ht : t ∈ withOffsets records b) : t.2 ∈ records := by
  rw [← withOffsets_map_record records b]
  exact List.mem_map.mpr ⟨t, ht, rfl⟩

theorem foldl_createIndexStep_writeFasta :
    ∀ (records : List (List Char × List Char)) (st : IndexState),
      (∀ r ∈ records, goodId r.1) →
      (∀ r ∈ records, r.2.all validChar = true) →
      flushIndex (List.foldl createIndexStep st (writeFasta records))
        = idxFold records st.filePos (flushIndex st) := by
  intro records
  induction records with
  | nil => intro st _ _; rfl
  | cons r rest ih =>
    rcases r with ⟨i, s⟩
    intro st hid hc
    have hgood := hid (i, s) (by simp)
    have hcont := hc (i, s) (by simp)
    have hW : writeFasta ((i, s) :: rest)
        = ('>' :: i) :: s :: writeFasta rest := by
      unfold writeFasta
      rw [List.flatMap_cons]
      rfl
    have hstep1 : createIndexStep st ('>' :: i) =
        { index := flushIndex st
          currentId := some i
          seqStart := st.filePos + (i.length + 2)
          seqLength := 0
          hasGaps := false
          baseLength := 0
          filePos := st.filePos + (i.length + 2) } := by
      unfold createIndexStep
      rw [if_pos (show ('>' :: i).head? = some '>' from rfl)]
      rw [show ('>' :: i).drop 1 = i from rfl,
        firstToken_of_no_ws hgood.2,
        show ('>' :: i).length + 1 = i.length + 2 from by simp]
    have hstep2 : createIndexStep (createIndexStep st ('>' :: i)) s =
        { index := flushIndex st
          currentId := some i
          seqStart := st.filePos + (i.length + 2)
          seqLength := s.length
          hasGaps := s.contains '-'
          baseLength := (s.filter (fun c => c ≠ '-')).length
          filePos := st.filePos + (i.length + s.length + 3) } := by
      rw [hstep1]
      unfold createIndexStep
      rw [if_neg (head?_content_ne_marker hcont)]
      rw [pyStripChars_of_valid hcont]
      simp only [Nat.zero_add, Bool.false_or]
      congr 1
      omega
    rw [hW, List.foldl_cons, List.foldl_cons, hstep2]
    rw [ih _ (fun x hx => hid x (by simp [hx]))
      (fun x hx => hc x (by simp [hx]))]
    rfl

theorem createIndex_writeFasta (records : List (List Char × List Char))
    (hid : ∀ r ∈ records, goodId r.1)
    (hc : ∀ r ∈ records, r.2.all validChar = true) :
    createIndex (writeFasta records) = idxFold records 0 [] := by
  unfold createIndex
  rw [foldl_createIndexStep_writeFasta records _ hid hc]
  rfl

theorem mem_of_getLast?' {α : Type} {l : List α} {x : α}
    (h : l.getLast? = some x) : x ∈ l := by
  obtain ⟨hne, heq⟩ := List.mem_getLast?_eq_getLast (show x ∈ l.getLast? from h)
  rw [heq]
  exact List.getLast_mem hne

theorem dictInsert_not_mem {d : List (List Char × IndexEntry)}
    {k : List Char} {v : IndexEntry}
    (h : ∀ p ∈ d, (p.1 == k) = false) : dictInsert d k v = d ++ [(k, v)] := by
  unfold dictInsert
  rw [if_neg]
  intro hany
  rw [List.any_eq_true] at hany
  obtain ⟨p, hp, hpk⟩ := hany
  rw [h p hp] at hpk
  cases hpk

theorem find?_cons_pos {α : Type} (f : α → Bool) (a : α) (l : List α)
    (h : f a = true) : (a :: l).find? f = some a :=
  List.find?_cons_of_pos l h

theorem find?_cons_neg {α : Type} (f : α → Bool) (a : α) (l : List α)
    (h : f a = false) : (a :: l).find? f = l.find? f :=
  List.find?_cons_of_neg l (by simp [h])

theorem find?_map_update_self :
    ∀ (d : List (List Char × IndexEntry)) (k : List Char) (v : IndexEntry),
      d.any (fun p => p.1 == k) = true →
      (d.map (fun p => if p.1 == k then (k, v) else p)).find?
        (fun p => p.1 == k) = some (k, v) := by
  intro d
  induction d with
  | nil => intro k v hcond; simp at hcond
  | cons p t ih =>
    intro k v hcond
    rw [List.map_cons]
    by_cases hpk : (p.1 == k) = true
    · rw [if_pos hpk]
      exact find?_cons_pos (fun p => p.1 == k) (k, v) _ (beq_self_eq_true k)
    · have hpk' : (p.1 == k) = false := by simpa using hpk
      rw [if_neg hpk]
      rw [find?_cons_neg (fun p => p.1 == k) p _ hpk']
      apply ih
      rw [List.any_cons, hpk', Bool.false_or] at hcond
      exact hcond

theorem find?_append_single_self
    (d : List (List Char × IndexEntry)) (k : List Char) (v : IndexEntry)
    (h : ∀ p ∈ d, (p.1 == k) = false) :
    (d ++ [(k, v)]).find? (fun p => p.1 == k) = some (k, v) := by
  induction d with
  | nil =>
    rw [List.nil_append]
    exact find?_cons_pos (fun p => p.1 == k) (k, v) _ (beq_self_eq_true k)
  | cons p t ih =>
    rw [List.cons_append]
    rw [find?_cons_neg (fun p => p.1 == k) p _ (h p (by simp))]
    exact ih (fun q hq => h q (by simp [hq]))

theorem find?_dictInsert_self (d : List (List Char × IndexEntry))
    (k : List Char) (v : IndexEntry) :
    (dictInsert d k v).find? (fun p => p.1 == k) = some (k, v) := by
  unfold dictInsert
  by_cases hcond : d.any (fun p => p.1 == k) = true
  · rw [if_pos hcond]
    exact find?_map_update_self d k v hcond
  · rw [if_neg hcond]
    apply find?_append_single_self
    intro p hp
    by_contra hh
    apply hcond
    rw [List.any_eq_true]
    exact ⟨p, hp, by simpa using hh⟩

theorem find?_map_update_ne :
    ∀ (d : List (List Char × IndexEntry)) (k : List Char) (v : IndexEntry)
      (q : List Char), (k == q) = false →
      (d.map (fun p => if p.1 == k then (k, v) else p)).find?
        (fun p => p.1 == q) = d.find? (fun p => p.1 == q) := by
  intro d
  induction d with
  | nil => intro k v q _; rfl
  | cons p t ih =>
    intro k v q hkq
    rw [List.map_cons]
    by_cases hpk : (p.1 == k) = true
    · rw [if_pos hpk]
      have hp1 : p.1 = k := by simpa using hpk
      have hpq : (p.1 == q) = false := by
        rw [hp1]
        exact hkq
      rw [find?_cons_neg (fun p => p.1 == q) (k, v) _ hkq,
        find?_cons_neg (fun p => p.1 == q) p _ hpq]
      exact ih k v q hkq
    · rw [if_neg hpk]
      by_cases hpq : (p.1 == q) = true
      · rw [find?_cons_pos (fun p => p.1 == q) p _ hpq,
          find?_cons_pos (fun p => p.1 == q) p _ hpq]
      · have hpq' : (p.1 == q) = false := by simpa using hpq
        rw [find?_cons_neg (fun p => p.1 == q) p _ hpq',
          find?_cons_neg (fun p => p.1 == q) p _ hpq']
        exact ih k v q hkq

theorem find?_append_single_ne :
    ∀ (d : List (List Char × IndexEntry)) (k : List Char) (v : IndexEntry)
      (q : List Char), (k == q) = false →
      (d ++ [(k, v)]).find? (fun p => p.1 == q)
        = d.find? (fun p => p.1 == q) := by
  intro d
  induction d with
  | nil =>
    intro k v q hkq
    rw [List.nil_append, find?_cons_neg (fun p => p.1 == q) (k, v) _ hkq]
  | cons p t ih =>
    intro k v q hkq
    rw [List.cons_append]
    by_cases hpq : (p.1 == q) = true
    · rw [find?_cons_pos (fun p => p.1 == q) p _ hpq,
        find?_cons_pos (fun p => p.1 == q) p _ hpq]
    · have hpq' : (p.1 == q) = false := by simpa using hpq
      rw [find?_cons_neg (fun p => p.1 == q) p _ hpq',
        find?_cons_neg (fun p => p.1 == q) p _ hpq']
      exact ih k v q hkq

theorem find?_dictInsert_ne (d : List (List Char × IndexEntry))
    (k : List Char) (v : IndexEntry) (q : List Char)
    (hq : (q == k) = false) :
    (dictInsert d k v).find? (fun p => p.1 == q)
      = d.find? (fun p => p.1 == q) := by
  have hkq : (k == q) = false := by
    rw [beq_eq_false_iff_ne] at hq ⊢
    exact fun h => hq h.symm
  unfold dictInsert
  split
  · exact find?_map_update_ne d k v q hkq
  · exact find?_append_single_ne d k v q hkq

theorem keysOf_dictInsert (d : List (List Char × IndexEntry))
    (k : List Char) (v : IndexEntry) :
    keysOf (dictInsert d k v)
      = if d.any (fun p => p.1 == k) then keysOf d else keysOf d ++ [k] := by
  unfold dictInsert keysOf
  split
  · rw [List.map_map]
    apply List.map_congr_left
    intro p _
    simp only [Function.comp]
    split
    · rename_i hpk
      exact (by simpa using hpk : p.1 = k).symm
    · rfl
  · rw [List.map_append]
    rfl

theorem keysOf_dictInsert_nodup {d : List (List Char × IndexEntry)}
    (hnd : (keysOf d).Nodup) (k : List Char) (v : IndexEntry) :
    (keysOf (dictInsert d k v)).Nodup := by
  rw [keysOf_dictInsert]
  split
  · exact hnd
  · rename_i hcond
    apply hnd.append (List.nodup_singleton k)
    intro x hx hxk
    simp at hxk
    subst hxk
    apply hcond
    rw [List.any_eq_true]
    obtain ⟨p, hp, hpx⟩ := List.mem_map.mp hx
    exact ⟨p, hp, by rw [hpx]; exact beq_self_eq_true x⟩

theorem keysOf_dictInsert_toFinset (d : List (List Char × IndexEntry))
    (k : List Char) (v : IndexEntry) :
    (keysOf (dictInsert d k v)).toFinset = insert k (keysOf d).toFinset := by
  rw [keysOf_dictInsert]
  split
  · rename_i hcond
    have hk : k ∈ keysOf d := by
      rw [List.any_eq_true] at hcond
      obtain ⟨p, hp, hpk⟩ := hcond
      have hp1 : p.1 = k := by simpa using hpk
      rw [← hp1]
      exact List.mem_map.mpr ⟨p, hp, rfl⟩
    rw [Finset.insert_eq_self.mpr (List.mem_toFinset.mpr hk)]
  · rw [List.toFinset_append]
    simp [Finset.insert_eq, Finset.union_comm]

theorem idxFold_keys_nodup : ∀ (records : List (List Char × List Char))
    (pos : Nat) (acc : List (List Char × IndexEntry)),
    (keysOf acc).Nodup → (keysOf (idxFold records pos acc)).Nodup := by
  intro records
  induction records with
  | nil => intro pos acc h; exact h
  | cons r rest ih =>
    rcases r with ⟨i, s⟩
    intro pos acc h
    exact ih _ _ (keysOf_dictInsert_nodup h i (entryOf pos i s))

theorem idxFold_keys_toFinset : ∀ (records : List (List Char × List Char))
    (pos : Nat) (acc : List (List Char × IndexEntry)),
    (keysOf (idxFold records pos acc)).toFinset
      = (keysOf acc).toFinset ∪ (records.map (fun r => r.1)).toFinset := by
  intro records
  induction records with
  | nil =>
    intro pos acc
    rw [show idxFold [] pos acc = acc from rfl]
    simp
  | cons r rest ih =>
    rcases r with ⟨i, s⟩
    intro pos acc
    unfold idxFold
    rw [ih, keysOf_dictInsert_toFinset]
    rw [List.map_cons, List.toFinset_cons]
    rw [Finset.insert_union, Finset.union_insert]

theorem idxFold_length (records : List (List Char × List Char)) :
    (idxFold records 0 []).length
      = (records.map (fun r => r.1)).dedup.length := by
  have hnd := idxFold_keys_nodup records 0 [] (by simp [keysOf])
  have hfin := idxFold_keys_toFinset records 0 []
  have h1 : (idxFold records 0 []).length
      = (keysOf (idxFold records 0 [])).length := by simp [keysOf]
  rw [h1, ← List.toFinset_card_of_nodup hnd, hfin]
  rw [show keysOf [] = [] from rfl]
  rw [List.toFinset_nil, Finset.empty_union]
  rw [List.card_toFinset]

theorem idxFold_nodup_eq : ∀ (records : List (List Char × List Char))
    (pos : Nat) (acc : List (List Char × IndexEntry)),
    (records.map (fun r => r.1)).Nodup →
    (∀ p ∈ acc, ∀ r ∈ records, (p.1 == r.1) = false) →
    idxFold records pos acc
      = acc ++ (withOffsets records pos).map
          (fun t => (t.2.1, entryOf t.1 t.2.1 t.2.2)) := by
  intro records
  induction records with
  | nil => intro pos acc _ _; simp [idxFold, withOffsets]
  | cons r rest ih =>
    rcases r with ⟨i, s⟩
    intro pos acc hnd hdisj
    unfold idxFold withOffsets
    rw [dictInsert_not_mem (fun p hp => hdisj p hp (i, s) (by simp))]
    have hnd' : (rest.map (fun r => r.1)).Nodup :=
      (List.nodup_cons.mp (by simpa using hnd)).2
    have hhead : i ∉ rest.map (fun r => r.1) :=
      (List.nodup_cons.mp (by simpa using hnd)).1
    rw [ih _ _ hnd' ?_]
    · rw [List.map_cons, List.append_assoc]
      rfl
    · intro p hp r hr
      rcases List.mem_append.mp hp with h1 | h2
      · exact hdisj p h1 r (by simp [hr])
      · simp at h2
        subst h2
        show (i == r.1) = false
        rw [beq_eq_false_iff_ne]
        intro heq
        exact hhead (List.mem_map.mpr ⟨r, hr, heq.symm⟩)

theorem idxFold_find?_no_match : ∀ (records : List (List Char × List Char))
    (pos : Nat) (acc : List (List Char × IndexEntry)) (id : List Char),
    (∀ u ∈ withOffsets records pos, (u.2.1 == id) = false) →
    (idxFold records pos acc).find? (fun p => p.1 == id)
      = acc.find? (fun p => p.1 == id) := by
  intro records
  induction records with
  | nil => intro pos acc id _; rfl
  | cons r rest ih =>
    rcases r with ⟨i, s⟩
    intro pos acc id hno
    unfold idxFold
    rw [ih _ _ id (fun u hu => hno u (by
      unfold withOffsets
      exact List.mem_cons_of_mem _ hu))]
    exact find?_dictInsert_ne acc i (entryOf pos i s) id
      (by
        have := hno (pos, i, s) (by unfold withOffsets; simp)
        rw [beq_eq_false_iff_ne] at this ⊢
        exact fun h => this h.symm)

theorem idxFold_find?_getLast : ∀ (records : List (List Char × List Char))
    (pos : Nat) (acc : List (List Char × IndexEntry)) (id : List Char)
    (t : Nat × List Char × List Char),
    ((withOffsets records pos).filter (fun u => u.2.1 == id)).getLast?
      = some t →
    (idxFold records pos acc).find? (fun p => p.1 == id)
      = some (t.2.1, entryOf t.1 t.2.1 t.2.2) := by
  intro records
  induction records with
  | nil => intro pos acc id t h; cases h
  | cons r rest ih =>
    rcases r with ⟨i, s⟩
    intro pos acc id t hlast
    unfold withOffsets at hlast
    rw [List.filter_cons] at hlast
    by_cases hrest : ((withOffsets rest (pos + (i.length + s.length + 3))).filter
        (fun u => u.2.1 == id)) = []
    · rw [hrest] at hlast
      by_cases hi : (((pos, i, s) : Nat × List Char × List Char).2.1 == id)
          = true
      · rw [if_pos (by simpa using hi)] at hlast
        rw [List.getLast?_singleton] at hlast
        injection hlast with hlast
        subst hlast
        have hieq : i = id := by simpa using hi
        subst hieq
        unfold idxFold
        rw [idxFold_find?_no_match rest _ _ i (fun u hu => by
          have := List.filter_eq_nil_iff.mp hrest u hu
          simpa using this)]
        exact find?_dictInsert_self acc i (entryOf pos i s)
      · rw [if_neg (by simpa using hi)] at hlast
        cases hlast
    · rcases hF : (withOffsets rest (pos + (i.length + s.length + 3))).filter
          (fun u => u.2.1 == id) with _ | ⟨f, F'⟩
      · exact absurd hF hrest
      · have hlast' : ((withOffsets rest
            (pos + (i.length + s.length + 3))).filter
            (fun u => u.2.1 == id)).getLast? = some t := by
          by_cases hi : (((pos, i, s) : Nat × List Char × List Char).2.1 == id)
              = true
          · rw [if_pos (by simpa using hi), hF] at hlast
            rw [List.getLast?_cons_cons] at hlast
            rw [hF]
            exact hlast
          · rw [if_neg (by simpa using hi)] at hlast
            exact hlast
        unfold idxFold
        exact ih _ _ id t hlast'

theorem flattenFile_writeFasta_cons (i s : List Char)
    (rest : List (List Char × List Char)) :
    flattenFile (writeFasta ((i, s) :: rest))
      = '>' :: (i ++ '\n' :: (s ++ '\n' :: flattenFile (writeFasta rest))) := by
  unfold flattenFile writeFasta
  rw [List.flatMap_cons]
  simp [List.append_assoc]

theorem flatten_segment : ∀ (records : List (List Char × List Char))
    (b : Nat) (F : List Char),
    F.drop b = flattenFile (writeFasta records) →
    ∀ t ∈ withOffsets records b,
      (F.drop (t.1 + (t.2.1.length + 2))).take t.2.2.length = t.2.2 := by
  intro records
  induction records with
  | nil => intro b F hF t ht; cases ht
  | cons r rest ih =>
    rcases r with ⟨i, s⟩
    intro b F hF t ht
    rw [flattenFile_writeFasta_cons] at hF
    unfold withOffsets at ht
    rcases List.mem_cons.mp ht with rfl | ht'
    · show (F.drop (b + (i.length + 2))).take s.length = s
      rw [← List.drop_drop, hF]
      have hdrop : List.drop (i.length + 2)
          ('>' :: (i ++ '\n' :: (s ++ '\n' :: flattenFile (writeFasta rest))))
          = s ++ '\n' :: flattenFile (writeFasta rest) := by
        rw [show i.length + 2 = (i.length + 1) + 1 from rfl,
          List.drop_succ_cons,
          show i.length + 1 = i.length + 1 from rfl,
          List.drop_append 1, List.drop_succ_cons, List.drop_zero]
      rw [hdrop]
      exact List.take_left s _
    · apply ih (b + (i.length + s.length + 3)) F _ t ht'
      rw [← List.drop_drop, hF]
      rw [show i.length + s.length + 3 = (i.length + (s.length + 2)) + 1
          from by omega,
        List.drop_succ_cons, List.drop_append (s.length + 2),
        show s.length + 2 = (s.length + 1) + 1 from rfl,
        List.drop_succ_cons, List.drop_append 1, List.drop_succ_cons,
        List.drop_zero]

theorem getById_writeFasta_entry (records : List (List Char × List Char))
    (hid : ∀ r ∈ records, goodId r.1)
    (hc : ∀ r ∈ records, r.2.all validChar = true)
    (id : List Char) (t : Nat × List Char × List Char)
    (hlast : ((withOffsets records 0).filter
      (fun u => u.2.1 == id)).getLast? = some t) :
    OnFile.getById (writeFasta records) id = .ok ⟨t.2.2, some id, none⟩ := by
  have hmem : t ∈ withOffsets records 0 :=
    List.mem_of_mem_filter (mem_of_getLast?' hlast)
  have hvt : t.2.2.all validChar = true := by
    have hrec : t.2 ∈ records := withOffsets_snd_mem hmem
    exact hc t.2 hrec
  have hseg := flatten_segment records 0 (flattenFile (writeFasta records))
    (by rw [List.drop_zero]) t hmem
  unfold OnFile.getById
  simp only [createIndex_writeFasta records hid hc,
    idxFold_find?_getLast records 0 [] id t hlast]
  show mkProteinSequence
      (stripAllWS (((flattenFile (writeFasta records)).drop
        (t.1 + (t.2.1.length + 2))).take t.2.2.length))
      (some id) none = .ok ⟨t.2.2, some id, none⟩
  rw [hseg, stripAllWS_of_valid hvt, mk_ok_of_valid hvt]

theorem withOffsets_filter_key : ∀ (records : List (List Char × List Char))
    (b : Nat) (id : List Char),
    ((withOffsets records b).filter (fun u => u.2.1 == id)).map (fun u => u.2)
      = records.filter (fun r => r.1 == id) := by
  intro records
  induction records with
  | nil => intro b id; rfl
  | cons r rest ih =>
    rcases r with ⟨i, s⟩
    intro b id
    unfold withOffsets
    rw [List.filter_cons, List.filter_cons]
    by_cases hi : (i == id) = true
    · rw [if_pos (by simpa using hi), if_pos (by simpa using hi)]
      rw [List.map_cons, ih]
    · rw [if_neg (by simpa using hi), if_neg (by simpa using hi)]
      exact ih _ _

theorem filter_key_of_nodup : ∀ (records : List (List Char × List Char))
    (b k : Nat) (i s : List Char),
    (records.map (fun r => r.1)).Nodup →
    records.get? k = some (i, s) →
    ∃ p, (withOffsets records b).filter (fun u => u.2.1 == i) = [(p, i, s)] := by
  intro records
  induction records with
  | nil => intro b k i s _ h; cases h
  | cons r rest ih =>
    rcases r with ⟨i0, s0⟩
    intro b k i s hnd hget
    rw [List.map_cons] at hnd
    have hnd' := List.nodup_cons.mp hnd
    unfold withOffsets
    rw [List.filter_cons]
    cases k with
    | zero =>
      simp only [List.get?_cons_zero] at hget
      injection hget with hget
      rw [Prod.mk.injEq] at hget
      obtain ⟨rfl, rfl⟩ := hget
      rw [if_pos (by simp)]
      refine ⟨b, ?_⟩
      congr 1
      rw [List.filter_eq_nil_iff]
      intro u hu
      have humem : u.2 ∈ rest := withOffsets_snd_mem hu
      intro hcon
      have : u.2.1 = i0 := by simpa using hcon
      apply hnd'.1
      rw [← this]
      exact List.mem_map.mpr ⟨u.2, humem, rfl⟩
    | succ k' =>
      simp only [List.get?_cons_succ] at hget
      have himem : i ∈ rest.map (fun r => r.1) :=
        List.mem_map.mpr ⟨(i, s), List.get?_mem hget, rfl⟩
      rw [if_neg (by
        intro hcon
        have : i0 = i := by simpa using hcon
        apply hnd'.1
        rw [this]
        exact himem)]
      exact ih _ k' i s hnd'.2 hget

theorem find?_of_nodup_keys : ∀ (d : List (List Char × IndexEntry))
    (k : Nat) (key : List Char) (v : IndexEntry),
    (keysOf d).Nodup → d.get? k = some (key, v) →
    d.find? (fun p => p.1 == key) = some (key, v) := by
  intro d
  induction d with
  | nil => intro k key v _ h; cases h
  | cons p t ih =>
    intro k key v hnd hget
    unfold keysOf at hnd
    rw [List.map_cons] at hnd
    have hnd' := List.nodup_cons.mp hnd
    cases k with
    | zero =>
      simp only [List.get?_cons_zero] at hget
      injection hget with hget
      subst hget
      exact find?_cons_pos (fun p => p.1 == key) (key, v) _
        (beq_self_eq_true key)
    | succ k' =>
      simp only [List.get?_cons_succ] at hget
      have hkeymem : key ∈ keysOf t :=
        List.mem_map.mpr ⟨(key, v), List.get?_mem hget, rfl⟩
      have hne : (p.1 == key) = false := by
        rw [beq_eq_false_iff_ne]
        intro heq
        apply hnd'.1
        rw [heq]
        exact hkeymem
      rw [find?_cons_neg (fun p => p.1 == key) p _ hne]
      exact ih k' key v hnd'.2 hget

theorem any_map' {α β : Type} (f : α → β) (l : List α) (p : β → Bool) :
    (l.map f).any p = l.any (fun a => p (f a)) := by
  induction l with
  | nil => rfl
  | cons a t ih => rw [List.map_cons, List.any_cons, List.any_cons, ih]

theorem withOffsets_any_content : ∀ (records : List (List Char × List Char))
    (b : Nat) (p : List Char → Bool),
    (withOffsets records b).any (fun t => p t.2.2)
      = records.any (fun r => p r.2) := by
  intro records
  induction records with
  | nil => intro b p; rfl
  | cons r rest ih =>
    rcases r with ⟨i, s⟩
    intro b p
    unfold withOffsets
    rw [List.any_cons, List.any_cons, ih]

theorem isGap_eq_false_of_ne {c : Char} (hc : c ≠ '-') : isGap c = false := by
  cases hg : isGap c
  · rfl
  · exact absurd ((isGap_iff c).mp hg) hc

theorem filter_ne_hyphen_length (s : List Char) :
    (s.filter (fun c => c ≠ '-')).length = s.length - s.countP isGap := by
  have hpt : ∀ c ∈ s, (decide (c ≠ '-')) = !isGap c := by
    intro c _
    by_cases hc : c = '-'
    · subst hc
      simp [isGap, GAP_CHARACTERS]
    · simp [hc, isGap_eq_false_of_ne hc]
  rw [List.filter_congr hpt, ← List.countP_eq_length_filter, countP_not_isGap]

theorem contains_hyphen_eq_any_isGap (s : List Char) :
    s.contains '-' = s.any isGap := by
  induction s with
  | nil => rfl
  | cons c t ih =>
    by_cases hc : c = '-'
    · subst hc
      simp [List.contains_cons, List.any_cons, isGap, GAP_CHARACTERS]
    · simp only [List.contains_cons, List.any_cons, ih,
        isGap_eq_false_of_ne hc, Bool.false_or]
      rw [show ('-' == c) = false from by
        rw [beq_eq_false_iff_ne]; exact fun h => hc h.symm]
      rw [Bool.false_or]

/-- Claim C2 (amended): for a file whose records carry pairwise distinct
non-empty whitespace-free identifiers and one content line of valid
symbols each, the file-backed view and the in-memory collection parsed
from the same file report identical aligned, fixed_length, width,
has_gaps and length, and member access by position or identifier on the
file-backed view returns exactly the in-memory member (the in-memory
collection supports access by integer position; its member for an
identifier is the unique member carrying it). -/
theorem C2_onfile_inmemory_agree :
    ∀ records : List (List Char × List Char),
      (records.map (fun r => r.1)).Nodup →
      (∀ r ∈ records, goodId r.1) →
      (∀ r ∈ records, r.2.all validChar = true) →
      ∃ M, ProteinSequences.fromFasta (writeFasta records) = .ok M ∧
        M = records.map (fun r => ⟨r.2, some r.1, none⟩) ∧
        OnFile.aligned (writeFasta records) = ProteinSequences.aligned M ∧
        OnFile.fixedLength (writeFasta records)
          = ProteinSequences.fixedLength M ∧
        OnFile.width (writeFasta records) = ProteinSequences.width M ∧
        OnFile.hasGaps (writeFasta records) = ProteinSequences.hasGaps M ∧
        OnFile.size (writeFasta records) = M.length ∧
        (∀ k r, records.get? k = some r →
          OnFile.getByPos (writeFasta records) (k : Int)
            = .ok ⟨r.2, some r.1, none⟩ ∧
          OnFile.getById (writeFasta records) r.1
            = .ok ⟨r.2, some r.1, none⟩ ∧
          M.get? k = some ⟨r.2, some r.1, none⟩) := by
  intro records hnd hid hc
  have hidx : createIndex (writeFasta records)
      = (withOffsets records 0).map
          (fun t => (t.2.1, entryOf t.1 t.2.1 t.2.2)) := by
    rw [createIndex_writeFasta records hid hc]
    rw [idxFold_nodup_eq records 0 [] hnd
      (fun p hp => absurd hp (List.not_mem_nil p))]
    rw [List.nil_append]
  have hlens : (createIndex (writeFasta records)).map (fun p => p.2.length)
      = records.map (fun r => r.2.length) := by
    rw [hidx, List.map_map]
    rw [show ((fun p : List Char × IndexEntry => p.2.length)
        ∘ (fun t : Nat × List Char × List Char
            => (t.2.1, entryOf t.1 t.2.1 t.2.2)))
        = ((fun r : List Char × List Char => r.2.length)
        ∘ (fun t : Nat × List Char × List Char => t.2)) from rfl]
    rw [← List.map_map, withOffsets_map_record]
  have hbases : (createIndex (writeFasta records)).map
        (fun p => p.2.base_length)
      = records.map (fun r => (r.2.filter (fun c => c ≠ '-')).length) := by
    rw [hidx, List.map_map]
    rw [show ((fun p : List Char × IndexEntry => p.2.base_length)
        ∘ (fun t : Nat × List Char × List Char
            => (t.2.1, entryOf t.1 t.2.1 t.2.2)))
        = ((fun r : List Char × List Char
            => (r.2.filter (fun c => c ≠ '-')).length)
        ∘ (fun t : Nat × List Char × List Char => t.2)) from rfl]
    rw [← List.map_map, withOffsets_map_record]
  have hsize' : (createIndex (writeFasta records)).length = records.length := by
    rw [hidx, List.length_map, withOffsets_length]
  have hkeys : (createIndex (writeFasta records)).map (fun p => p.1)
      = records.map (fun r => r.1) := by
    rw [hidx, List.map_map]
    rw [show ((fun p : List Char × IndexEntry => p.1)
        ∘ (fun t : Nat × List Char × List Char
            => (t.2.1, entryOf t.1 t.2.1 t.2.2)))
        = ((fun r : List Char × List Char => r.1)
        ∘ (fun t : Nat × List Char × List Char => t.2)) from rfl]
    rw [← List.map_map, withOffsets_map_record]
  have hMlens : (records.map
        (fun r => (⟨r.2, some r.1, none⟩ : ProteinSequence))).map
        (fun s => s.chars.length)
      = records.map (fun r => r.2.length) := by
    rw [List.map_map]
    rfl
  have hMbases : (records.map
        (fun r => (⟨r.2, some r.1, none⟩ : ProteinSequence))).map
        (fun s => s.baseLength)
      = records.map (fun r => r.2.length - r.2.countP isGap) := by
    rw [List.map_map]
    rfl
  have hbase_eq : records.map
        (fun r => (r.2.filter (fun c => c ≠ '-')).length)
      = records.map (fun r => r.2.length - r.2.countP isGap) := by
    apply List.map_congr_left
    intro r _
    exact filter_ne_hyphen_length r.2
  refine ⟨records.map (fun r => ⟨r.2, some r.1, none⟩), ?_, rfl, ?_, ?_, ?_,
    ?_, ?_, ?_⟩
  · unfold ProteinSequences.fromFasta
    rw [show readFasta (writeFasta records) = records from
      (readFastaGo_writeFasta records hid hc).2]
    exact seqsOfRecords_ok records hc
  · unfold OnFile.aligned ProteinSequences.aligned
    rw [hlens, hMlens]
  · unfold OnFile.fixedLength ProteinSequences.fixedLength
    rw [hbases, hbase_eq, hMbases]
  · unfold OnFile.width ProteinSequences.width
    rw [show OnFile.aligned (writeFasta records)
        = ProteinSequences.aligned
            (records.map (fun r => ⟨r.2, some r.1, none⟩)) from by
      unfold OnFile.aligned ProteinSequences.aligned
      rw [hlens, hMlens]]
    by_cases hA : ProteinSequences.aligned
        (records.map (fun r => (⟨r.2, some r.1, none⟩ : ProteinSequence)))
        = true
    · rw [if_pos hA, if_pos hA, hlens, ← List.head?_map, hMlens]
    · rw [if_neg hA, if_neg hA]
  · unfold OnFile.hasGaps ProteinSequences.hasGaps
    rw [hidx, any_map', any_map']
    have h1 := withOffsets_any_content records 0 (fun s => s.contains '-')
    have h2 : records.any (fun r => r.2.contains '-')
        = records.any (fun r => r.2.any isGap) := by
      rw [show (fun r : List Char × List Char => r.2.contains '-')
          = (fun r : List Char × List Char => r.2.any isGap) from
        funext (fun r => contains_hyphen_eq_any_isGap r.2)]
    exact h1.trans h2
  · unfold OnFile.size
    rw [hsize', List.length_map]
  · intro k r hget
    have hk : k < records.length := by
      obtain ⟨h, _⟩ := List.get?_eq_some.mp hget
      exact h
    obtain ⟨p, hfilter⟩ :=
      filter_key_of_nodup records 0 k r.1 r.2 hnd hget
    have hlast : ((withOffsets records 0).filter
        (fun u => u.2.1 == r.1)).getLast? = some (p, r.1, r.2) := by
      rw [hfilter, List.getLast?_singleton]
    have hbyid := getById_writeFasta_entry records hid hc r.1
      (p, r.1, r.2) hlast
    refine ⟨?_, hbyid, ?_⟩
    · unfold OnFile.getByPos
      rw [if_neg (by
        rw [hsize']
        omega)]
      rw [show ((k : Int)).toNat = k from Int.toNat_natCast k]
      rw [hkeys]
      rw [show (records.map (fun r => r.1)).get? k = some r.1 from by
        rw [List.get?_map, hget]; rfl]
      exact hbyid
    · rw [List.get?_map, hget]
      rfl

/-- Counterexample to C2 as stated: a record whose content spans two
lines.  The in-memory reader concatenates the lines into ACDE, but the
file-backed index records a four-byte span starting at the first content
byte, and re-reading those four bytes crosses the embedded newline, so
positional access returns ACD. -/
theorem C2_counterexample :
    ProteinSequences.fromFasta [['>', 'a'], ['A', 'C'], ['D', 'E']]
      = .ok [⟨['A', 'C', 'D', 'E'], some ['a'], none⟩] ∧
    OnFile.getByPos [['>', 'a'], ['A', 'C'], ['D', 'E']] 0
      = .ok ⟨['A', 'C', 'D'], some ['a'], none⟩ ∧
    (⟨['A', 'C', 'D'], some ['a'], none⟩ : ProteinSequence)
      ≠ ⟨['A', 'C', 'D', 'E'], some ['a'], none⟩ :=
  ⟨rfl, rfl, by decide⟩

/-- Witness for the amended C2 at the spec's two-record file
a:ACDE / b:AC-E. -/
theorem C2_onfile_inmemory_agree_witness :
    ∃ M, ProteinSequences.fromFasta
        (writeFasta [(['a'], ['A', 'C', 'D', 'E']), (['b'], ['A', 'C', '-', 'E'])])
        = .ok M ∧
      M = [(['a'], ['A', 'C', 'D', 'E']),
           (['b'], ['A', 'C', '-', 'E'])].map
          (fun r => ⟨r.2, some r.1, none⟩) ∧
      OnFile.aligned
          (writeFasta [(['a'], ['A', 'C', 'D', 'E']), (['b'], ['A', 'C', '-', 'E'])])
        = ProteinSequences.aligned M ∧
      OnFile.fixedLength
          (writeFasta [(['a'], ['A', 'C', 'D', 'E']), (['b'], ['A', 'C', '-', 'E'])])
        = ProteinSequences.fixedLength M ∧
      OnFile.width
          (writeFasta [(['a'], ['A', 'C', 'D', 'E']), (['b'], ['A', 'C', '-', 'E'])])
        = ProteinSequences.width M ∧
      OnFile.hasGaps
          (writeFasta [(['a'], ['A', 'C', 'D', 'E']), (['b'], ['A', 'C', '-', 'E'])])
        = ProteinSequences.hasGaps M ∧
      OnFile.size
          (writeFasta [(['a'], ['A', 'C', 'D', 'E']), (['b'], ['A', 'C', '-', 'E'])])
        = M.length ∧
      (∀ k r, [(['a'], ['A', 'C', 'D', 'E']),
               (['b'], ['A', 'C', '-', 'E'])].get? k = some r →
        OnFile.getByPos
            (writeFasta [(['a'], ['A', 'C', 'D', 'E']), (['b'], ['A', 'C', '-', 'E'])])
            (k : Int)
          = .ok ⟨r.2, some r.1, none⟩ ∧
        OnFile.getById
            (writeFasta [(['a'], ['A', 'C', 'D', 'E']), (['b'], ['A', 'C', '-', 'E'])])
            r.1
          = .ok ⟨r.2, some r.1, none⟩ ∧
        M.get? k = some ⟨r.2, some r.1, none⟩) :=
  C2_onfile_inmemory_agree
    [(['a'], ['A', 'C', 'D', 'E']), (['b'], ['A', 'C', '-', 'E'])]
    (by decide)
    (by
      intro r hr
      rcases List.mem_cons.mp hr with rfl | hr2
      · exact ⟨by decide, by decide⟩
      · rcases List.mem_cons.mp hr2 with rfl | hr3
        · exact ⟨by decide, by decide⟩
        · cases hr3)
    (by decide)

/-- Claim C10 (amended): for a file of single-content-line records whose
identifiers may repeat, the file-backed collection's length is the
number of distinct identifiers, access by identifier returns the content
of the last record carrying it, and a full iteration yields one sequence
per record in file order, which is strictly more than the reported
length when an identifier repeats. -/
theorem C10_duplicate_ids :
    ∀ records : List (List Char × List Char),
      (∀ r ∈ records, goodId r.1) →
      (∀ r ∈ records, r.2.all validChar = true) →
      OnFile.size (writeFasta records)
        = (records.map (fun r => r.1)).dedup.length ∧
      (∀ (id : List Char) (lastRec : List Char × List Char),
        (records.filter (fun r => r.1 == id)).getLast? = some lastRec →
        OnFile.getById (writeFasta records) id
          = .ok ⟨lastRec.2, some id, none⟩) ∧
      OnFile.iterSeqs (writeFasta records)
        = .ok (records.map (fun r => ⟨r.2, some r.1, none⟩)) ∧
      (records.map
        (fun r => (⟨r.2, some r.1, none⟩ : ProteinSequence))).length
        = records.length ∧
      (¬(records.map (fun r => r.1)).Nodup →
        OnFile.size (writeFasta records) < records.length) := by
  intro records hid hc
  have hsize : OnFile.size (writeFasta records)
      = (records.map (fun r => r.1)).dedup.length := by
    unfold OnFile.size
    rw [createIndex_writeFasta records hid hc, idxFold_length]
  refine ⟨hsize, ?_, ?_, List.length_map records _, ?_⟩
  · intro id lastRec hlastrec
    have hmapf := withOffsets_filter_key records 0 id
    have hmapped : (((withOffsets records 0).filter
        (fun u => u.2.1 == id)).map (fun u => u.2)).getLast?
        = some lastRec := by
      rw [hmapf]
      exact hlastrec
    rw [List.getLast?_map] at hmapped
    rcases hT : ((withOffsets records 0).filter
        (fun u => u.2.1 == id)).getLast? with _ | t
    · rw [hT] at hmapped
      cases hmapped
    · rw [hT] at hmapped
      simp only [Option.map_some'] at hmapped
      have hbyid := getById_writeFasta_entry records hid hc id t hT
      rw [hbyid]
      injection hmapped with hmapped
      rw [show t.2.2 = lastRec.2 from by rw [hmapped]]
  · unfold OnFile.iterSeqs
    rw [show readFasta (writeFasta records) = records from
      (readFastaGo_writeFasta records hid hc).2]
    exact seqsOfRecords_ok records hc
  · intro hnnd
    rw [hsize]
    have hsub := List.dedup_sublist (records.map (fun r => r.1))
    have hle := hsub.length_le
    have hne : (records.map (fun r => r.1)).dedup
        ≠ records.map (fun r => r.1) := by
      intro he
      exact hnnd (List.dedup_eq_self.mp he)
    have hlt : (records.map (fun r => r.1)).dedup.length
        < (records.map (fun r => r.1)).length := by
      cases Nat.eq_or_lt_of_le hle with
      | inl heq => exact absurd (hsub.eq_of_length heq) hne
      | inr hlt => exact hlt
    rw [List.length_map] at hlt
    exact hlt

/-- Counterexample to C10 as stated: the last of two records sharing the
identifier a spans two content lines (ACDE over AC and DE); access by
the identifier returns ACD, not the record's content ACDE, because the
recorded four-byte read crosses the embedded newline. -/
theorem C10_counterexample :
    OnFile.size [['>', 'a'], ['G', 'G'], ['>', 'a'], ['A', 'C'], ['D', 'E']]
      = 1 ∧
    readFasta [['>', 'a'], ['G', 'G'], ['>', 'a'], ['A', 'C'], ['D', 'E']]
      = [(['a'], ['G', 'G']), (['a'], ['A', 'C', 'D', 'E'])] ∧
    OnFile.getById
      [['>', 'a'], ['G', 'G'], ['>', 'a'], ['A', 'C'], ['D', 'E']] ['a']
      = .ok ⟨['A', 'C', 'D'], some ['a'], none⟩ ∧
    (['A', 'C', 'D'] : List Char) ≠ ['A', 'C', 'D', 'E'] :=
  ⟨rfl, rfl, rfl, by decide⟩

/-- Witness for the amended C10 at a three-record file in which the
identifier a appears twice. -/
theorem C10_duplicate_ids_witness :
    OnFile.size (writeFasta
      [(['a'], ['A', 'C']), (['a'], ['G', 'G']), (['b'], ['A', 'A'])])
      = ([['a'], ['a'], ['b']] : List (List Char)).dedup.length ∧
    (∀ (id : List Char) (lastRec : List Char × List Char),
      ([(['a'], ['A', 'C']), (['a'], ['G', 'G']),
        (['b'], ['A', 'A'])].filter (fun r => r.1 == id)).getLast?
        = some lastRec →
      OnFile.getById (writeFasta
        [(['a'], ['A', 'C']), (['a'], ['G', 'G']), (['b'], ['A', 'A'])]) id
        = .ok ⟨lastRec.2, some id, none⟩) ∧
    OnFile.iterSeqs (writeFasta
      [(['a'], ['A', 'C']), (['a'], ['G', 'G']), (['b'], ['A', 'A'])])
      = .ok ([(['a'], ['A', 'C']), (['a'], ['G', 'G']),
              (['b'], ['A', 'A'])].map (fun r => ⟨r.2, some r.1, none⟩)) ∧
    ([(['a'], ['A', 'C']), (['a'], ['G', 'G']), (['b'], ['A', 'A'])].map
      (fun r => (⟨r.2, some r.1, none⟩ : ProteinSequence))).length = 3 ∧
    (¬(([['a'], ['a'], ['b']] : List (List Char))).Nodup →
      OnFile.size (writeFasta
        [(['a'], ['A', 'C']), (['a'], ['G', 'G']), (['b'], ['A', 'A'])])
        < 3) :=
  C10_duplicate_ids
    [(['a'], ['A', 'C']), (['a'], ['G', 'G']), (['b'], ['A', 'A'])]
    (by
      intro r hr
      rcases List.mem_cons.mp hr with rfl | hr2
      · exact ⟨by decide, by decide⟩
      · rcases List.mem_cons.mp hr2 with rfl | hr3
        · exact ⟨by decide, by decide⟩
        · rcases List.mem_cons.mp hr3 with rfl | hr4
          · exact ⟨by decide, by decide⟩
          · cases hr4)
    (by decide)

/-- Witness for C8 at concrete inputs: construction of AC, a valid
mutation result, the invalid-symbol failure, a gapped slice, and an
applied mapping. -/
theorem C8_validated_symbols_witness :
    ((⟨['A', 'D'], none, none⟩ : ProteinSequence).chars.all validChar = true) ∧
    ProteinSequence.mutate ⟨['A', 'C'], some ['i'], none⟩ 0 '?'
      = .error .invalidChar ∧
    ((⟨['A', '-', 'C'], none, none⟩ : ProteinSequence).withNoGaps.chars.all
      validChar = true) := by
  refine ⟨?_, ?_, ?_⟩
  · exact C8_validated_symbols.1 ['A', 'D'] none none _ (by rfl)
  · exact C8_validated_symbols.2.2.1 ⟨['A', 'C'], some ['i'], none⟩ 0 '?'
      (by decide) (by decide) (by decide)
  · exact C8_validated_symbols.2.2.2.1 ⟨['A', '-', 'C'], none, none⟩ (by decide)

end AidePredict
